import Mathlib

/-!
# Verification of the giantt core (giantt_core.py)

A shallow embedding of the dependency-graph engine of the giantt task
tool: status/priority/relation glyph tables, the compound-duration codec,
the time-constraint codec, the single-line item codec, the dependency
graph with its deterministic topological sort and cycle detection, the
time-sorted log store, and the consistency checker ("doctor").

Conventions of the embedding:
* Python strings are modelled as `List Char` (named `Str` below).
* Python floats are modelled as rationals `ℚ` (the arithmetic used by the
  duration code is addition, multiplication and exact division, which the
  original intends in real-number terms).
* `datetime` timestamps are modelled as integers (only their total order
  is used by the code under verification).
* Python dicts that are only ever keyed by item id are modelled as
  insertion-ordered association lists; `dict.__setitem__` keeps the
  original position on overwrite, which `upsertItem` mirrors.
* Functions that can raise are modelled with `Except Str`; `None` results
  are `Option`.
* Recursion that Python performs without a termination guard (the raw
  dependency-depth recursion, the Kahn while-loop, the cycle DFS, the
  binary search) is modelled with explicit fuel; the theorems establish
  that the chosen fuel is sufficient in every situation in which the
  Python code terminates.
-/

abbrev Str : Type := List Char

/-- The apostrophe character (written numerically throughout). -/
def aposC : Char := Char.ofNat 39

/-- Opening brace character. -/
def lbrC : Char := Char.ofNat 123

/-- Closing brace character. -/
def rbrC : Char := Char.ofNat 125

/-- Model of Python `str.lower` (ASCII case folding suffices here). -/
def lowerS (s : Str) : Str := s.map Char.toLower

/-- Model of Python whitespace (`str.strip`, `\s`). -/
def isSpc (c : Char) : Bool := c.isWhitespace

/-- Model of Python `str.strip()`. -/
def pyStrip (s : Str) : Str :=
  ((s.dropWhile isSpc).reverse.dropWhile isSpc).reverse

/-- Model of Python `needle in haystack` (substring containment). -/
def substrB (needle : Str) : Str → Bool
  | [] => needle.isEmpty
  | c :: rest => needle.isPrefixOf (c :: rest) || substrB needle rest

/-- Index of the first occurrence of a character, model of `str.find`
(the `-1` case is `none`). -/
def findChar (c : Char) : Str → Option Nat
  | [] => none
  | d :: rest => if d = c then some 0 else (findChar c rest).map (· + 1)

/-- Splitting on a (non-empty) separator substring, model of
`str.split(sep)`.  Fuel is the length of the string. -/
def splitOnSubF (sep : Str) : Nat → Str → List Str
  | 0, s => [s]
  | fuel + 1, s =>
    match findSep s with
    | none => [s]
    | some i => s.take i :: splitOnSubF sep fuel (s.drop (i + sep.length))
where
  findSep : Str → Option Nat
    | [] => none
    | c :: rest =>
      if sep.isPrefixOf (c :: rest) then some 0 else (findSep rest).map (· + 1)

def splitOnSub (sep s : Str) : List Str := splitOnSubF sep (s.length + 1) s

/-- Model of Python `str.split()` (split on whitespace runs, drop
empties).  Fuel is the length of the string. -/
def splitWsF : Nat → Str → List Str
  | 0, _ => []
  | fuel + 1, s =>
    let s1 := s.dropWhile isSpc
    let w := s1.takeWhile (fun c => !isSpc c)
    if w = [] then [] else w :: splitWsF fuel (s1.dropWhile (fun c => !isSpc c))

def splitWs (s : Str) : List Str := splitWsF (s.length + 1) s

/-- Model of Python `sep.join(parts)`. -/
def joinSub (sep : Str) : List Str → Str
  | [] => []
  | [p] => p
  | p :: rest => p ++ sep ++ joinSub sep rest

/-- Model of Python `str.replace(old, new)` (all occurrences). -/
def replaceAllF (old new : Str) : Nat → Str → Str
  | 0, s => s
  | fuel + 1, s =>
    match s with
    | [] => []
    | c :: rest =>
      if old.isPrefixOf (c :: rest) ∧ old ≠ [] then
        new ++ replaceAllF old new fuel ((c :: rest).drop old.length)
      else
        c :: replaceAllF old new fuel rest

def replaceAll (old new s : Str) : Str := replaceAllF old new (s.length + 1) s

/-- Digits of a natural number (fuel-based base-10 rendering). -/
def natDigitsF : Nat → Nat → Str
  | 0, _ => []
  | fuel + 1, n =>
    if n < 10 then [Char.ofNat (48 + n)]
    else natDigitsF fuel (n / 10) ++ [Char.ofNat (48 + n % 10)]

def renderNat (n : Nat) : Str := natDigitsF (n + 1) n

def renderInt (i : Int) : Str :=
  if i < 0 then '-' :: renderNat i.natAbs else renderNat i.natAbs

/-- Fractional digits of a rational in `[0,1)`, fuel-bounded; model of
the decimal expansion printed by Python for the (finite-decimal) floats
produced by the duration code. -/
def fracDigitsF : Nat → ℚ → Str
  | 0, _ => []
  | fuel + 1, q =>
    if q = 0 then []
    else
      let q10 := q * 10
      let d : ℤ := ⌊q10⌋
      Char.ofNat (48 + d.toNat) :: fracDigitsF fuel (q10 - d)

/-- Model of Python number formatting as used by `DurationPart.__str__`:
integers print without a decimal point, other amounts print their
(finite) decimal expansion. -/
def renderQnn (q : ℚ) : Str :=
  if q.den = 1 then renderInt q.num
  else renderInt ⌊q⌋ ++ '.' :: fracDigitsF 32 (q - ⌊q⌋)

def renderQ (q : ℚ) : Str :=
  if q < 0 then '-' :: renderQnn (-q) else renderQnn q

/-- Value of a string of ASCII digits. -/
def digitsVal (s : Str) : Nat :=
  s.foldl (fun acc c => acc * 10 + (c.toNat - 48)) 0

/-- Model of Python `float(...)` applied to a `\d+\.?\d*` token. -/
def parseDecimalQ (s : Str) : ℚ :=
  match splitOnSub ['.'] s with
  | [ip] => (digitsVal ip : ℚ)
  | [ip, fp] => (digitsVal ip : ℚ) + (digitsVal fp : ℚ) / ((10 : ℚ) ^ fp.length)
  | _ => 0

/-! ## Glyph enumerations (giantt_core.py lines 9–81) -/

inductive Status : Type
  | NOT_STARTED | IN_PROGRESS | BLOCKED | COMPLETED
deriving DecidableEq

def Status.value : Status → Str
  | .NOT_STARTED => ['○']
  | .IN_PROGRESS => ['◑']
  | .BLOCKED => ['⊘']
  | .COMPLETED => ['●']

def Status.fromValue (s : Str) : Except Str Status :=
  if s = ['○'] then .ok .NOT_STARTED
  else if s = ['◑'] then .ok .IN_PROGRESS
  else if s = ['⊘'] then .ok .BLOCKED
  else if s = ['●'] then .ok .COMPLETED
  else .error ("ValueError: not a valid Status: ".data ++ s)

def statusGlyphs : List Char := ['○', '◑', '⊘', '●']

inductive Priority : Type
  | LOWEST | LOW | NEUTRAL | UNSURE | MEDIUM | HIGH | CRITICAL
deriving DecidableEq

def Priority.value : Priority → Str
  | .LOWEST => ",,,".data
  | .LOW => "...".data
  | .NEUTRAL => []
  | .UNSURE => "?".data
  | .MEDIUM => "!".data
  | .HIGH => "!!".data
  | .CRITICAL => "!!!".data

def Priority.fromValue (s : Str) : Except Str Priority :=
  if s = ",,,".data then .ok .LOWEST
  else if s = "...".data then .ok .LOW
  else if s = [] then .ok .NEUTRAL
  else if s = "?".data then .ok .UNSURE
  else if s = "!".data then .ok .MEDIUM
  else if s = "!!".data then .ok .HIGH
  else if s = "!!!".data then .ok .CRITICAL
  else .error ("ValueError: not a valid Priority: ".data ++ s)

inductive RelationType : Type
  | REQUIRES | ANYOF | SUPERCHARGES | INDICATES | TOGETHER | CONFLICTS | BLOCKS | SUFFICIENT
deriving DecidableEq

def RelationType.value : RelationType → Char
  | .REQUIRES => '⊢'
  | .ANYOF => '⋲'
  | .SUPERCHARGES => '≫'
  | .INDICATES => '∴'
  | .TOGETHER => '∪'
  | .CONFLICTS => '⊟'
  | .BLOCKS => '►'
  | .SUFFICIENT => '≻'

def RelationType.name : RelationType → Str
  | .REQUIRES => "REQUIRES".data
  | .ANYOF => "ANYOF".data
  | .SUPERCHARGES => "SUPERCHARGES".data
  | .INDICATES => "INDICATES".data
  | .TOGETHER => "TOGETHER".data
  | .CONFLICTS => "CONFLICTS".data
  | .BLOCKS => "BLOCKS".data
  | .SUFFICIENT => "SUFFICIENT".data

/-- Declaration order of the `RelationType` enum (iteration order of
`RelationType` and `RelationType._member_names_`). -/
def relationTypes : List RelationType :=
  [.REQUIRES, .ANYOF, .SUPERCHARGES, .INDICATES, .TOGETHER, .CONFLICTS, .BLOCKS, .SUFFICIENT]

def relGlyphOfName (n : Str) : Option Char :=
  (relationTypes.find? (fun r => r.name == n)).map RelationType.value

inductive TimeConstraintType : Type
  | WINDOW | DEADLINE | RECURRING
deriving DecidableEq

inductive ConsequenceType : Type
  | SEVERE | WARNING | ESCALATING
deriving DecidableEq

def ConsequenceType.value : ConsequenceType → Str
  | .SEVERE => "severe".data
  | .WARNING => "warn".data
  | .ESCALATING => "escalating".data

def ConsequenceType.fromValue (s : Str) : Except Str ConsequenceType :=
  if s = "severe".data then .ok .SEVERE
  else if s = "warn".data then .ok .WARNING
  else if s = "escalating".data then .ok .ESCALATING
  else .error ("ValueError: not a valid ConsequenceType: ".data ++ s)

inductive EscalationRate : Type
  | LOWEST | LOW | NEUTRAL | UNSURE | MEDIUM | HIGH | CRITICAL
deriving DecidableEq

def EscalationRate.value : EscalationRate → Str
  | .LOWEST => ",,,".data
  | .LOW => "...".data
  | .NEUTRAL => []
  | .UNSURE => "?".data
  | .MEDIUM => "!".data
  | .HIGH => "!!".data
  | .CRITICAL => "!!!".data

def EscalationRate.fromValue (s : Str) : Except Str EscalationRate :=
  if s = ",,,".data then .ok .LOWEST
  else if s = "...".data then .ok .LOW
  else if s = [] then .ok .NEUTRAL
  else if s = "?".data then .ok .UNSURE
  else if s = "!".data then .ok .MEDIUM
  else if s = "!!".data then .ok .HIGH
  else if s = "!!!".data then .ok .CRITICAL
  else .error ("ValueError: not a valid EscalationRate: ".data ++ s)

/-! ## DurationPart and Duration (giantt_core.py lines 84–228) -/

structure DurationPart : Type where
  amount : ℚ
  unit : Str
deriving DecidableEq

/-- `DurationPart._UNIT_SECONDS` in its dict insertion order. -/
def unitSecondsTable : List (Str × ℚ) :=
  [("s".data, 1), ("min".data, 60), ("h".data, 3600), ("hr".data, 3600),
   ("d".data, 86400), ("w".data, 604800), ("mo".data, 2592000), ("y".data, 31536000)]

/-- `DurationPart._UNIT_NORMALIZE`. -/
def unitNormalizeTable : List (Str × Str) :=
  [("hr".data, "h".data), ("minute".data, "min".data), ("minutes".data, "min".data),
   ("hour".data, "h".data), ("hours".data, "h".data), ("day".data, "d".data),
   ("days".data, "d".data), ("week".data, "w".data), ("weeks".data, "w".data),
   ("month".data, "mo".data), ("months".data, "mo".data), ("year".data, "y".data),
   ("years".data, "y".data)]

def lookupTab {β : Type} (tab : List (Str × β)) (k : Str) : Option β :=
  (tab.find? (fun p => p.1 == k)).map Prod.snd

/-- Seconds per unit; the Python code indexes `_UNIT_SECONDS[unit]`
directly (a `KeyError` on an invalid unit), so every theorem about
durations restricts to parts whose unit is in the table. -/
def unitSeconds (u : Str) : ℚ := (lookupTab unitSecondsTable u).getD 0

def validUnit (u : Str) : Bool := (lookupTab unitSecondsTable u).isSome

/-- `DurationPart.create`: normalize the unit, then validate it. -/
def DurationPart.create (amount : ℚ) (unit : Str) : Except Str DurationPart :=
  let normalized := (lookupTab unitNormalizeTable unit).getD unit
  if validUnit normalized then .ok ⟨amount, normalized⟩
  else .error ("Invalid duration unit: ".data ++ unit)

def DurationPart.totalSeconds (p : DurationPart) : ℚ := p.amount * unitSeconds p.unit

/-- `DurationPart.__str__`: whole-number amounts print without a decimal
point. -/
def DurationPart.render (p : DurationPart) : Str := renderQ p.amount ++ p.unit

structure Duration : Type where
  parts : List DurationPart := []
deriving DecidableEq

def Duration.totalSeconds (d : Duration) : ℚ :=
  (d.parts.map DurationPart.totalSeconds).sum

/-- `Duration.__str__`. -/
def Duration.render (d : Duration) : Str :=
  if d.parts = [] then "0s".data
  else (d.parts.map DurationPart.render).flatten

/-- The token scanner of `Duration.parse`: all non-overlapping matches of
`(\d+\.?\d*)([a-zA-Z]+)`, left to right.  At a given position the regex
matches exactly when a maximal digit run, optionally followed by a dot
and a maximal digit run, is immediately followed by a letter (shrinking
any of the greedy pieces only re-exposes a digit or the dot, so
backtracking can never succeed where maximal munch fails); on failure
the scan advances one character. -/
def scanDurF : Nat → Str → List (Str × Str)
  | 0, _ => []
  | fuel + 1, s =>
    match s with
    | [] => []
    | c :: rest =>
      if c.isDigit then
        let ds := (c :: rest).takeWhile Char.isDigit
        let r1 := (c :: rest).dropWhile Char.isDigit
        match r1 with
        | '.' :: r2 =>
          let fs := r2.takeWhile Char.isDigit
          let r3 := r2.dropWhile Char.isDigit
          let letters := r3.takeWhile Char.isAlpha
          if letters = [] then scanDurF fuel rest
          else (ds ++ '.' :: fs, letters) :: scanDurF fuel (r3.dropWhile Char.isAlpha)
        | _ =>
          let letters := r1.takeWhile Char.isAlpha
          if letters = [] then scanDurF fuel rest
          else (ds, letters) :: scanDurF fuel (r1.dropWhile Char.isAlpha)
      else scanDurF fuel rest

def scanDur (s : Str) : List (Str × Str) := scanDurF (s.length + 1) s

/-- `Duration.parse`. -/
def Duration.parse (s : Str) : Except Str Duration := do
  if s = [] then throw "Empty duration string".data
  let raw := scanDur s
  let parts ← raw.mapM (fun p => DurationPart.create (parseDecimalQ p.1) p.2)
  if parts = [] then throw ("No valid duration parts found in: ".data ++ s)
  pure ⟨parts⟩

/-- `sorted(self._UNIT_SECONDS.items(), key=..., reverse=True)`: the
unit table in descending seconds order; Python's sort is stable, so the
tied `h`/`hr` pair keeps its dict order (`h` first).  `insertionSort`
with this relation is stable in the same sense. -/
def unitsDesc : List (Str × ℚ) :=
  List.insertionSort (fun a b : Str × ℚ => b.2 ≤ a.2) unitSecondsTable

/-- `Duration.__add__`: sum the seconds, then re-express as a single
part in the first (largest) unit whose per-unit seconds is ≤ the total,
falling back to seconds. -/
def Duration.add (a b : Duration) : Duration :=
  let total := a.totalSeconds + b.totalSeconds
  match unitsDesc.find? (fun p => total ≥ p.2) with
  | some p => ⟨[⟨total / p.2, p.1⟩]⟩
  | none => ⟨[⟨total, "s".data⟩]⟩

/-! ## TimeConstraint (giantt_core.py lines 260–364) -/

structure TimeConstraint : Type where
  type : TimeConstraintType
  duration : Duration
  grace_period : Option Duration := none
  consequence_type : ConsequenceType := .WARNING
  escalation_rate : EscalationRate := .NEUTRAL
  due_date : Option Str := none
  interval : Option Duration := none
  stack : Bool := false
deriving DecidableEq

def isConstraintUnit (c : Char) : Bool :=
  c = 's' || c = 'm' || c = 'h' || c = 'd' || c = 'w' || c = 'y'

/-- Matcher for the optional grace group `(:\d+[smhdwy])?` followed by a
mandatory `,`: returns the group *including* its leading colon (as
`match.group(2)` does) together with the rest after the comma.  If the
next character is a colon the group must match (skipping it would leave
the colon facing the required comma), so a malformed grace field fails
the whole regex. -/
def graceGroup (s : Str) : Option (Option Str × Str) :=
  match s with
  | ':' :: r2 =>
    let ds := r2.takeWhile Char.isDigit
    let r3 := r2.dropWhile Char.isDigit
    if ds = [] then none
    else
      match r3 with
      | u :: ',' :: r4 => if isConstraintUnit u then some (some (':' :: ds ++ [u]), r4) else none
      | _ => none
  | ',' :: r2 => some (none, r2)
  | _ => none

/-- Matcher for `\(<\d+[smhdwy]>(:\d+[smhdwy])?,([^)]+)\)` — the shared
tail of the `window(...)` and `every(...)` grammars, after the keyword
and parenthesis have been consumed.  Returns (group1, group2, group3). -/
def durTriple (s : Str) : Option (Str × Option Str × Str) := do
  let ds := s.takeWhile Char.isDigit
  let r1 := s.dropWhile Char.isDigit
  if ds = [] then none
  else
    match r1 with
    | u :: r2 =>
      if isConstraintUnit u then
        let (g2, r3) ← graceGroup r2
        let g3 := r3.takeWhile (· ≠ ')')
        if g3 = [] then none
        else if (r3.drop g3.length).head? = some ')' then some (ds ++ [u], g2, g3)
        else none
      else none
    | [] => none

/-- `re.match(r'window\((\d+[smhdwy])(:\d+[smhdwy])?,([^)]+)\)', s)`
(prefix match; trailing text is ignored, as with `re.match`). -/
def winMatch (s : Str) : Option (Str × Option Str × Str) :=
  if "window(".data.isPrefixOf s then durTriple (s.drop 7) else none

/-- `re.match(r'every\((\d+[smhdwy])(:\d+[smhdwy])?,([^)]+)\)', s)`. -/
def everyMatch (s : Str) : Option (Str × Option Str × Str) :=
  if "every(".data.isPrefixOf s then durTriple (s.drop 6) else none

/-- `re.match(r'due\((\d{4}-\d{2}-\d{2})(:\d+[smhdwy])?,([^)]+)\)', s)`. -/
def dueMatch (s : Str) : Option (Str × Option Str × Str) := do
  if "due(".data.isPrefixOf s then
    let r0 := s.drop 4
    let d4 := r0.take 4
    let r1 := r0.drop 4
    if d4.length = 4 ∧ d4.all Char.isDigit ∧ r1.head? = some '-' then
      let d2 := (r1.drop 1).take 2
      let r2 := r1.drop 3
      if d2.length = 2 ∧ d2.all Char.isDigit ∧ r2.head? = some '-' then
        let d3 := (r2.drop 1).take 2
        let r3 := r2.drop 3
        if d3.length = 2 ∧ d3.all Char.isDigit then
          let (g2, r4) ← graceGroup r3
          let g3 := r4.takeWhile (· ≠ ')')
          if g3 = [] then none
          else if (r4.drop g3.length).head? = some ')' then
            some (d4 ++ '-' :: d2 ++ '-' :: d3, g2, g3)
          else none
        else none
      else none
    else none
  else none

/-- `TimeConstraint._parse_consequence`. -/
def parseConsequence (s : Str) : Except Str (ConsequenceType × EscalationRate) :=
  let parts := splitOnSub ",".data s
  let base := pyStrip (parts.headI)
  match parts with
  | _ :: p1 :: _ =>
    if "escalate:".data.isPrefixOf p1 then
      let rateStr := p1.drop 9
      if rateStr = [] then .ok (.ESCALATING, .NEUTRAL)
      else (EscalationRate.fromValue rateStr).map (fun r => (.ESCALATING, r))
    else (ConsequenceType.fromValue base).map (fun c => (c, .NEUTRAL))
  | _ => (ConsequenceType.fromValue base).map (fun c => (c, .NEUTRAL))

/-- `TimeConstraint.from_string`: empty input is `None`; otherwise the
three grammars are tried in order WINDOW → DEADLINE → RECURRING and a
failure of all three raises. -/
def TimeConstraint.fromStr (s : Str) : Except Str (Option TimeConstraint) :=
  if s = [] then .ok none
  else match winMatch s with
  | some (g1, g2, g3) => do
    let w ← Duration.parse g1
    let grace ← match g2 with
      | some g => (Duration.parse (g.drop 1)).map some
      | none => pure none
    let cons ← parseConsequence g3
    return some { type := .WINDOW, duration := w, grace_period := grace,
                  consequence_type := cons.1, escalation_rate := cons.2 }
  | none =>
  match dueMatch s with
  | some (g1, g2, g3) => do
    let grace ← match g2 with
      | some g => (Duration.parse (g.drop 1)).map some
      | none => pure none
    let cons ← parseConsequence g3
    let d1 ← Duration.parse "1d".data
    return some { type := .DEADLINE, duration := d1, grace_period := grace,
                  consequence_type := cons.1, escalation_rate := cons.2,
                  due_date := some g1 }
  | none =>
  match everyMatch s with
  | some (g1, g2, g3) => do
    let interval ← Duration.parse g1
    let grace ← match g2 with
      | some g => (Duration.parse (g.drop 1)).map some
      | none => pure none
    let stack := substrB "stack".data g3
    let g3' := replaceAll ",stack".data [] g3
    let cons ← parseConsequence g3'
    return some { type := .RECURRING, duration := interval, grace_period := grace,
                  consequence_type := cons.1, escalation_rate := cons.2,
                  interval := some interval, stack := stack }
  | none =>
    .error ("Invalid time constraint format: ".data ++ s)

/-! ## JSON string literals (json.dumps / json.loads on a single string) -/

def hexDigitC (n : Nat) : Char :=
  if n < 10 then Char.ofNat (48 + n) else Char.ofNat (87 + n)

def hex4 (n : Nat) : Str :=
  [hexDigitC (n / 4096 % 16), hexDigitC (n / 256 % 16), hexDigitC (n / 16 % 16), hexDigitC (n % 16)]

/-- One character of `json.dumps` output (default `ensure_ascii=True`;
characters above the BMP would use surrogate pairs, which no theorem
here exercises). -/
def jsonEscChar (c : Char) : Str :=
  if c = '"' then ['\\', '"']
  else if c = '\\' then ['\\', '\\']
  else if c = '\n' then ['\\', 'n']
  else if c = '\r' then ['\\', 'r']
  else if c = '\t' then ['\\', 't']
  else if c.toNat = 8 then ['\\', 'b']
  else if c.toNat = 12 then ['\\', 'f']
  else if c.toNat < 32 ∨ c.toNat > 126 then '\\' :: 'u' :: hex4 c.toNat
  else [c]

/-- `json.dumps(title)` for a string value. -/
def jsonDumpsStr (s : Str) : Str :=
  '"' :: (s.flatMap jsonEscChar) ++ ['"']

def hexVal (c : Char) : Nat :=
  if c.isDigit then c.toNat - 48
  else if 'a' ≤ c ∧ c ≤ 'f' then c.toNat - 87
  else if 'A' ≤ c ∧ c ≤ 'F' then c.toNat - 55
  else 0

/-- Unescaping pass of `json.loads` over the interior of a string
literal. -/
def jsonUnescF : Nat → Str → Except Str Str
  | 0, _ => throw "json: fuel".data
  | _, [] => .ok []
  | fuel + 1, c :: rest =>
    if c = '"' then throw "json: unexpected quote".data
    else if c = '\\' then
      match rest with
      | [] => throw "json: trailing backslash".data
      | e :: r2 =>
        if e = 'u' then
          let h := r2.take 4
          if h.length = 4 then
            (jsonUnescF fuel (r2.drop 4)).map (fun t =>
              Char.ofNat (hexVal h.headI * 4096 + hexVal (h.drop 1).headI * 256
                + hexVal (h.drop 2).headI * 16 + hexVal (h.drop 3).headI) :: t)
          else throw "json: bad unicode escape".data
        else
          let decoded : Except Str Char :=
            if e = '"' then .ok '"'
            else if e = '\\' then .ok '\\'
            else if e = '/' then .ok '/'
            else if e = 'n' then .ok '\n'
            else if e = 'r' then .ok '\r'
            else if e = 't' then .ok '\t'
            else if e = 'b' then .ok (Char.ofNat 8)
            else if e = 'f' then .ok (Char.ofNat 12)
            else throw "json: bad escape".data
          do pure ((← decoded) :: (← jsonUnescF fuel r2))
    else (jsonUnescF fuel rest).map (c :: ·)

/-- `json.loads` applied to a string literal slice. -/
def jsonLoadsStr (s : Str) : Except Str Str :=
  match s with
  | '"' :: rest =>
    if rest.getLast? = some '"' then jsonUnescF (s.length + 1) (rest.dropLast)
    else throw "json: no closing quote".data
  | _ => throw "json: not a string literal".data

/-! ## GianttItem and the line codec (giantt_core.py lines 367–559) -/

structure GianttItem : Type where
  id : Str
  title : Str := []
  description : Str := []
  status : Status := .NOT_STARTED
  priority : Priority := .NEUTRAL
  duration : Duration := {}
  charts : List Str := []
  tags : List Str := []
  relations : List (Str × List Str) := []
  time_constraint : Option TimeConstraint := none
  user_comment : Option Str := none
  auto_comment : Option Str := none
  occlude : Bool := false
deriving DecidableEq

/-- `parse_pre_title_section`: prefix-match
`^([○◑⊘●])\s+([^\s]+)\s+([^\s"]+)` and return the three groups.  Each
greedy piece is a maximal run of a character class whose complement the
following piece cannot match, so maximal munch is the only possible
match. -/
def parsePreTitle (pre : Str) : Except Str (Str × Str × Str) :=
  match pre with
  | c :: rest =>
    if c ∈ statusGlyphs then
      let sp1 := rest.takeWhile isSpc
      let r1 := rest.dropWhile isSpc
      let g2 := r1.takeWhile (fun d => !isSpc d)
      let r2 := r1.dropWhile (fun d => !isSpc d)
      let sp2 := r2.takeWhile isSpc
      let r3 := r2.dropWhile isSpc
      let g3 := r3.takeWhile (fun d => !isSpc d && d ≠ '"')
      if sp1 = [] ∨ g2 = [] ∨ sp2 = [] ∨ g3 = [] then
        .error ("Invalid pre-title format: ".data ++ pre)
      else .ok ([c], g2, pyStrip g3)
    else .error ("Invalid pre-title format: ".data ++ pre)
  | [] => .error ("Invalid pre-title format: ".data ++ pre)

/-- The longest-match priority-suffix scan of `GianttItem.from_string`
(symbols tried in the order `!!!, !!, !, ?, ..., ,,,`). -/
def prioritySymbols : List Str :=
  ["!!!".data, "!!".data, "!".data, "?".data, "...".data, ",,,".data]

def stripPriority (idpri : Str) : Str × Str :=
  match prioritySymbols.find? (fun sym => sym.isSuffixOf idpri) with
  | some sym => (idpri.take (idpri.length - sym.length), sym)
  | none => (idpri, [])

/-- Scan for the closing title quote: `line.find('"', i)` repeated while
the character before the found quote is a backslash. -/
def findCloseQuote : Nat → Str → Nat → Option Nat
  | 0, _, _ => none
  | fuel + 1, line, i =>
    match findChar '"' (line.drop i) with
    | none => none
    | some j =>
      let pos := i + j
      if line.getD (pos - 1) ' ' = '\\' then findCloseQuote fuel line (pos + 1)
      else some pos

/-- `re.findall(f"{symbol}\\[([^]]+)\\]", relations_str)` restricted to
its first match: scan for the glyph followed by `[`, a non-empty
bracket-free run and `]`; on a failed attempt the scan advances one
character. -/
def findRel (g : Char) : Str → Option Str
  | [] => none
  | c :: rest =>
    if c = g then
      match rest with
      | '[' :: r2 =>
        let inner := r2.takeWhile (· ≠ ']')
        if inner ≠ [] ∧ (r2.drop inner.length).head? = some ']' then some inner
        else findRel g rest
      | _ => findRel g rest
    else findRel g rest

/-- Python `str.strip('"')`: strip *all* leading and trailing quote
characters. -/
def stripQuotes (s : Str) : Str :=
  ((s.dropWhile (· = '"')).reverse.dropWhile (· = '"')).reverse

/-- `GianttItem.from_string`.

The final constructor call passes `time_constraint=time_constraint_str`
— a *string* (or `None`) — into `GianttItem.__init__`, whose explicit
type check `isinstance(time_constraint, (TimeConstraint, type(None)))`
raises `TypeError` for every non-`None` value produced here; the
embedding therefore fails whenever the line carries an `@@@` section. -/
def itemFromStr (line0 : Str) (occ : Bool := false) : Except Str GianttItem := do
  let line := pyStrip line0
  match findChar '"' line with
  | none =>
    -- line.find('"') = -1, so the pre-title slice is line[:-1]; if that
    -- parses, the subsequent title search still fails.
    let _ ← parsePreTitle (pyStrip (line.take (line.length - 1)))
    throw "No ending quote found for title".data
  | some tStart =>
    let pre := pyStrip (line.take tStart)
    let (stS, idpriS, durS) ← parsePreTitle pre
    let status ← Status.fromValue stS
    match findCloseQuote (line.length + 1) line (tStart + 1) with
    | none => throw "No ending quote found for title".data
    | some tEnd =>
      let title ← jsonLoadsStr ((line.drop tStart).take (tEnd + 1 - tStart))
      let postTitle := pyStrip (line.drop (tEnd + 1))
      let (idS, priS) := stripPriority idpriS
      let priority ← Priority.fromValue priS
      let duration ← Duration.parse durS
      -- charts: ^\s*(\{[^}]+\})\s*(.*)$
      let pt1 := postTitle.dropWhile isSpc
      match pt1 with
      | b :: r1 =>
        if b ≠ lbrC then throw "Invalid charts format".data
        else
          let inner := r1.takeWhile (· ≠ rbrC)
          if inner = [] ∨ (r1.drop inner.length).head? ≠ some rbrC then
            throw "Invalid charts format".data
          else
            let remainder := ((r1.drop (inner.length + 1)).dropWhile isSpc)
            let parts := splitOnSub ">>>".data remainder
            let tagsStr := pyStrip parts.headI
            let relsFull := if parts.length > 1 then pyStrip (parts.getD 1 []) else []
            let cps := splitOnSub "@@@".data relsFull
            let relStr := pyStrip cps.headI
            let tcStr : Option Str :=
              if cps.length > 1 then some (pyStrip (cps.getD 1 [])) else none
            let charts := (splitOnSub ",".data inner).filterMap (fun c =>
              if pyStrip c = [] then none else some (stripQuotes (pyStrip c)))
            let tags := (splitOnSub ",".data tagsStr).filterMap (fun t =>
              if pyStrip t = [] then none else some (pyStrip t))
            let relations := relationTypes.filterMap (fun r =>
              (findRel r.value relStr).map (fun inner2 =>
                (r.name, (splitOnSub ",".data inner2).map pyStrip)))
            match tcStr with
            | some _ =>
              throw "TypeError: time_constraint must be a TimeConstraint or None".data
            | none =>
              pure { id := idS, title := title, description := [], status := status,
                     priority := priority, duration := duration, charts := charts,
                     tags := tags, relations := relations, time_constraint := none,
                     user_comment := none, auto_comment := none, occlude := occ }
      | [] => throw "Invalid charts format".data

/-- `GianttItem.to_string`.  `RelationType[rel_type]` raises `KeyError`
for a key that is not a relation-type name, hence the `Except`. -/
def itemToStr (it : GianttItem) : Except Str Str := do
  let chartsStr := lbrC :: '"' :: joinSub "\",\"".data it.charts ++ ['"', rbrC]
  let tagsStr := if it.tags ≠ [] then ' ' :: joinSub ",".data it.tags else []
  let relParts ← (it.relations.filter (fun p => p.2 ≠ [])).mapM
    (fun p => match relGlyphOfName p.1 with
      | some g => pure (g :: '[' :: joinSub ",".data p.2 ++ [']'])
      | none => throw ("KeyError: ".data ++ p.1))
  let relationsStr := if relParts ≠ [] then " >>> ".data ++ joinSub " ".data relParts else []
  let userStr := match it.user_comment with
    | some c => if c ≠ [] then ' ' :: '#' :: ' ' :: c else []
    | none => []
  let autoStr := match it.auto_comment with
    | some c => if c ≠ [] then ' ' :: '#' :: '#' :: '#' :: ' ' :: c else []
    | none => []
  pure (it.status.value ++ ' ' :: it.id ++ it.priority.value ++ ' ' :: it.duration.render
    ++ ' ' :: jsonDumpsStr it.title ++ ' ' :: chartsStr ++ tagsStr ++ relationsStr
    ++ userStr ++ autoStr)

/-! ## GianttGraph (giantt_core.py lines 581–761) -/

/-- `CycleDetectedException`. -/
inductive SortErr : Type
  | cycleDetected (cycle_items : List Str)
deriving DecidableEq

structure GianttGraph : Type where
  items : List GianttItem := []
deriving DecidableEq

/-- `self.items[item.id] = item`: Python dict assignment keeps the
original position of an existing key and appends a new key. -/
def upsertItem : List GianttItem → GianttItem → List GianttItem
  | [], it => [it]
  | x :: xs, it => if x.id = it.id then it :: xs else x :: upsertItem xs it

def GianttGraph.addItem (g : GianttGraph) (it : GianttItem) : GianttGraph :=
  ⟨upsertItem g.items it⟩

def lookupG (g : GianttGraph) (i : Str) : Option GianttItem :=
  g.items.find? (fun it => it.id == i)

def containsId (g : GianttGraph) (i : Str) : Bool := (lookupG g i).isSome

def keysG (g : GianttGraph) : List Str := g.items.map GianttItem.id

def relLookup (it : GianttItem) (k : Str) : Option (List Str) :=
  lookupTab it.relations k

/-- Keep-first deduplication (model of accumulating into a Python
`set`; the claims only use the result as a set, so the—unspecified—
iteration order of the Python set is modelled by first-occurrence
order). -/
def dedupF : List Str → List Str
  | [] => []
  | x :: xs => x :: (dedupF xs).filter (· ≠ x)

inductive FindErr : Type
  | notFound (query : Str)
  | multipleMatches (ids : List Str)
deriving DecidableEq

/-- `GianttGraph.find_by_substring`. -/
def findBySubstring (g : GianttGraph) (substring : Str) : Except FindErr GianttItem :=
  let ms0 := g.items.filter
    (fun it => substrB (lowerS substring) (lowerS it.title) || substring == it.id)
  match ms0 with
  | [] => .error (.notFound substring)
  | [m] => .ok m
  | ms => .error (.multipleMatches (ms.map GianttItem.id))

/-- The adjacency set of `_safe_topological_sort`: the REQUIRES targets
of an item restricted to ids present in the graph, as a set. -/
def adjTargets (g : GianttGraph) (it : GianttItem) : List Str :=
  dedupF (((relLookup it "REQUIRES".data).getD []).filter (fun t => containsId g t))

def adjOf (g : GianttGraph) (i : Str) : List Str :=
  match lookupG g i with
  | some it => adjTargets g it
  | none => []

/-- `in_degree[t]` after the initialization loops: one per present
REQUIRES edge into `t` (each source item contributes at most once since
the adjacency lists are sets). -/
def srcCount (g : GianttGraph) (t : Str) : Nat :=
  (g.items.filter (fun s => t ∈ adjTargets g s)).length

structure KState : Type where
  queue : List Str
  indeg : List (Str × Nat)
  emitted : List GianttItem

def setTab (tab : List (Str × Nat)) (k : Str) (v : Nat) : List (Str × Nat) :=
  tab.map (fun p => if p.1 = k then (k, v) else p)

/-- The body of the neighbour loop: `in_degree[neighbor] -= 1`, then
enqueue on reaching zero. -/
def kahnDecr (acc : List (Str × Nat) × List Str) (t : Str) : List (Str × Nat) × List Str :=
  let v := ((lookupTab acc.1 t).getD 0) - 1
  (setTab acc.1 t v, if v = 0 then acc.2 ++ [t] else acc.2)

/-- One iteration of the Kahn while-loop: pop the queue head, emit its
item, decrement each neighbour's in-degree and enqueue those that reach
zero.  (The `none` branch of the item lookup would be a Python
`KeyError`; the loop invariant proved below shows it is unreachable.) -/
def kahnStep (g : GianttGraph) (s : KState) : KState :=
  match s.queue with
  | [] => s
  | node :: qrest =>
    match lookupG g node with
    | none => ⟨qrest, s.indeg, s.emitted⟩
    | some it =>
      let upd := (adjOf g node).foldl kahnDecr (s.indeg, [])
      ⟨qrest ++ upd.2, upd.1, s.emitted ++ [it]⟩

def kahnRun (g : GianttGraph) : Nat → KState → KState
  | 0, s => s
  | fuel + 1, s =>
    match s.queue with
    | [] => s
    | _ :: _ => kahnRun g fuel (kahnStep g s)

def kahnInit (g : GianttGraph) : KState :=
  { queue := (g.items.filter (fun it => srcCount g it.id = 0)).map GianttItem.id,
    indeg := g.items.map (fun it => (it.id, srcCount g it.id)),
    emitted := [] }

/-- The cycle-reporting DFS of `_safe_topological_sort.find_cycle`. -/
def dfsC (g : GianttGraph) (visited : List Str) : Nat → List Str → Str → Option (List Str)
  | 0, _, _ => none
  | fuel + 1, stack, cur =>
    if cur ∈ stack then some (stack.drop (stack.indexOf cur))
    else if cur ∈ visited then none
    else
      (adjOf g cur).foldl
        (fun acc t => acc.orElse (fun _ => dfsC g visited fuel (stack ++ [cur]) t)) none

def findCycleIds (g : GianttGraph) (visited : List Str) : List Str :=
  match (keysG g).filter (fun k => k ∉ visited) with
  | [] => []
  | start :: _ =>
    match dfsC g visited (g.items.length + 1) [] start with
    | some cy => cy ++ [cy.headI]
    | none => []

/-- `GianttGraph._safe_topological_sort`: Kahn's algorithm with a
fuel of `|items|` (the while-loop pops, and hence emits, one node per
iteration, and the invariants below show at most `|items|` nodes are
ever emitted, so this fuel is exact), followed by the cycle report if
not every node was emitted and by the final `reverse`. -/
def safeTopologicalSort (g : GianttGraph) : Except SortErr (List GianttItem) :=
  let fin := kahnRun g g.items.length (kahnInit g)
  if fin.emitted.length = g.items.length then .ok fin.emitted.reverse
  else .error (.cycleDetected (findCycleIds g (fin.emitted.map GianttItem.id)))

/-- `GianttGraph._get_dependency_depth`, with fuel standing in for
Python's unbounded recursion (which terminates exactly on acyclic
inputs; the theorems fix the fuel at `|items| + 1` and prove it
sufficient under acyclicity). -/
def depthFuel (g : GianttGraph) : Nat → GianttItem → Nat
  | 0, _ => 0
  | fuel + 1, it =>
    match relLookup it "REQUIRES".data with
    | none => 0
    | some targets =>
      targets.foldl (fun m t =>
        match lookupG g t with
        | some dep => max m (depthFuel g fuel dep + 1)
        | none => m) 0

def depthD (g : GianttGraph) (it : GianttItem) : Nat :=
  depthFuel g (g.items.length + 1) it

/-- Python string `<` (lexicographic by code point). -/
def strLtB : Str → Str → Bool
  | [], [] => false
  | [], _ :: _ => true
  | _ :: _, [] => false
  | a :: as, b :: bs => a < b || (a = b && strLtB as bs)

/-- The sort key `(dependency depth, id)` of `topological_sort`,
compared as Python compares tuples. -/
def keyLeB (g : GianttGraph) (a b : GianttItem) : Bool :=
  depthD g a < depthD g b ||
    (depthD g a = depthD g b && (strLtB a.id b.id || a.id = b.id))

def rLe (g : GianttGraph) (a b : GianttItem) : Prop := keyLeB g a b = true

instance rLeDec (g : GianttGraph) : DecidableRel (rLe g) :=
  fun a b => instDecidableEqBool (keyLeB g a b) true

/-- `GianttGraph.topological_sort`: the safe sort followed by the
deterministic re-sort on `(depth, id)`.  Python's `sorted` is a stable
sort; `insertionSort` is stable too, and the theorems show the key is
injective on the sorted list, making stability immaterial. -/
def topologicalSort (g : GianttGraph) : Except SortErr (List GianttItem) :=
  (safeTopologicalSort g).map (fun l => List.insertionSort (rLe g) l)

/-- The REQUIRES edge relation restricted to present ids (`a` requires
`b`, both present). -/
def edgeR (g : GianttGraph) (a b : Str) : Prop :=
  ∃ it, lookupG g a = some it ∧ b ∈ (relLookup it "REQUIRES".data).getD []
    ∧ containsId g b = true

/-- Acyclicity of the present-id REQUIRES relation: no non-empty path
returns to its start. -/
def AcyclicR (g : GianttGraph) : Prop :=
  ∀ a, ¬ Relation.TransGen (edgeR g) a a

/-! ## LogEntry and LogCollection (giantt_core.py lines 764–934) -/

structure LogEntry : Type where
  session : Str
  timestamp : Int
  message : Str
  tags : List Str
  metadata : List (Str × Str) := []
  occlude : Bool := false
deriving DecidableEq

structure LogCollection : Type where
  entries : List LogEntry := []
deriving DecidableEq

/-- Python `list.insert(i, x)` (index already ≥ 0 here; an index past
the end appends). -/
def listInsertPy {α : Type} (l : List α) (i : Nat) (x : α) : List α :=
  l.take i ++ x :: l.drop i

def defaultEntry : LogEntry := ⟨[], 0, [], [], [], false⟩

instance : Inhabited LogEntry := ⟨defaultEntry⟩

/-- The `while low < high` binary search of
`get_first_index_after_timestamp`. -/
def bsearchTs (es : List LogEntry) (t : Int) : Nat → Nat → Nat → Nat
  | 0, low, _ => low
  | fuel + 1, low, high =>
    if low < high then
      let mid := (low + high) / 2
      if (es.getD mid defaultEntry).timestamp < t then bsearchTs es t fuel (mid + 1) high
      else bsearchTs es t fuel low mid
    else low

/-- `LogCollection.get_first_index_after_timestamp`. -/
def firstIdxAfter (es : List LogEntry) (t : Int) : Nat :=
  match es with
  | [] => 0
  | _ :: _ =>
    if t ≥ (es.getLast?.getD defaultEntry).timestamp then es.length - 1
    else if t < (es.headI).timestamp then 0
    else bsearchTs es t (es.length + 1) 0 (es.length - 1)

/-- `LogCollection.add_entry`: insert *after* the index returned by
`get_first_index_after_timestamp`. -/
def addEntry (c : LogCollection) (e : LogEntry) : LogCollection :=
  ⟨listInsertPy c.entries (firstIdxAfter c.entries e.timestamp + 1) e⟩

def timeSorted (es : List LogEntry) : Prop :=
  es.Pairwise (fun a b => a.timestamp ≤ b.timestamp)

instance timeSortedDec (es : List LogEntry) : Decidable (timeSorted es) := by
  unfold timeSorted; exact List.instDecidablePairwise es

/-! ## Issues and GianttDoctor (giantt_core.py lines 937–1189) -/

inductive IssueType : Type
  | DANGLING_REFERENCE | ORPHANED_ITEM | INCOMPLETE_CHAIN | CHART_INCONSISTENCY | TAG_INCONSISTENCY
deriving DecidableEq

structure Issue : Type where
  type : IssueType
  item_id : Str
  message : Str
  related_ids : List Str
  suggested_fix : Option Str := none
deriving DecidableEq

def refMessage (target relName : Str) : Str :=
  "References non-existent item ".data ++ aposC :: target ++ aposC :: " in ".data
    ++ lowerS relName ++ " relation".data

def refFix (itemId relName target : Str) : Str :=
  "giantt modify ".data ++ itemId ++ " --remove ".data ++ lowerS relName
    ++ ' ' :: target

/-- `GianttDoctor._check_references`. -/
def checkReferences (g : GianttGraph) : List Issue :=
  g.items.flatMap (fun it =>
    it.relations.flatMap (fun p =>
      p.2.filterMap (fun target =>
        if containsId g target then none
        else some { type := .DANGLING_REFERENCE, item_id := it.id,
                    message := refMessage target p.1, related_ids := [target],
                    suggested_fix := some (refFix it.id p.1 target) })))

def getRelSet (it : GianttItem) (k : Str) : List Str :=
  dedupF ((relLookup it k).getD [])

def chainMsg1 (blocked : Str) : Str :=
  "Item blocks ".data ++ aposC :: blocked ++ aposC :: " but isn".data ++ aposC
    :: "t required by it".data

def chainMsg2 (required : Str) : Str :=
  "Item requires ".data ++ aposC :: required ++ aposC :: " but isn".data ++ aposC
    :: "t blocked by it".data

def chainMsg3 (sufficient : Str) : Str :=
  "Item is sufficient for ".data ++ aposC :: sufficient ++ aposC :: " but doesn".data
    ++ aposC :: "t have any-of relation with it".data

def chainMsg4 (anyofItem : Str) : Str :=
  "Item has any-of relation with ".data ++ aposC :: anyofItem ++ aposC
    :: " but isn".data ++ aposC :: "t sufficient for it".data

def addFix (target relName itemId : Str) : Str :=
  "giantt modify ".data ++ target ++ " --add ".data ++ relName ++ ' ' :: itemId

/-- `GianttDoctor._check_chains`.  Note: the fourth map reads relation
key `'ANY'`, exactly as the Python does — even though items built by
`from_string` store the ANYOF relation under `'ANYOF'`
(`RelationType.ANYOF.name`). -/
def checkChains (g : GianttGraph) : List Issue :=
  let issues1 := g.items.flatMap (fun it =>
    (getRelSet it "BLOCKS".data).filterMap (fun blocked =>
      match lookupG g blocked with
      | none => none
      | some b =>
        if it.id ∈ getRelSet b "REQUIRES".data then none
        else some { type := .INCOMPLETE_CHAIN, item_id := it.id,
                    message := chainMsg1 blocked, related_ids := [blocked],
                    suggested_fix := some (addFix blocked "requires".data it.id) }))
  let issues2 := g.items.flatMap (fun it =>
    (getRelSet it "REQUIRES".data).filterMap (fun required =>
      match lookupG g required with
      | none => none
      | some r =>
        if it.id ∈ getRelSet r "BLOCKS".data then none
        else some { type := .INCOMPLETE_CHAIN, item_id := it.id,
                    message := chainMsg2 required, related_ids := [required],
                    suggested_fix := some (addFix required "blocks".data it.id) }))
  let issues3 := g.items.flatMap (fun it =>
    (getRelSet it "SUFFICIENT".data).filterMap (fun suff =>
      match lookupG g suff with
      | none => none
      | some sitem =>
        if it.id ∈ getRelSet sitem "ANY".data then none
        else some { type := .INCOMPLETE_CHAIN, item_id := it.id,
                    message := chainMsg3 suff, related_ids := [suff],
                    suggested_fix := some (addFix suff "any".data it.id) }))
  let issues4 := g.items.flatMap (fun it =>
    (getRelSet it "ANY".data).filterMap (fun anyofItem =>
      match lookupG g anyofItem with
      | none => none
      | some aitem =>
        if it.id ∈ getRelSet aitem "SUFFICIENT".data then none
        else some { type := .INCOMPLETE_CHAIN, item_id := it.id,
                    message := chainMsg4 anyofItem, related_ids := [anyofItem],
                    suggested_fix := some (addFix anyofItem "sufficient".data it.id) }))
  issues1 ++ issues2 ++ issues3 ++ issues4

/-- `GianttDoctor.full_diagnosis` (orphan/chart/tag passes are commented
out in the source). -/
def fullDiagnosis (g : GianttGraph) : List Issue :=
  checkReferences g ++ checkChains g

/-- `GianttDoctor.quick_check`. -/
def quickCheck (g : GianttGraph) : Nat := (checkReferences g).length

/-- `re.search(r"non-existent item '([^']+)'", message)` restricted to
its first match. -/
def extractTargetF : Nat → Str → Option Str
  | 0, _ => none
  | fuel + 1, s =>
    match s with
    | [] => none
    | _ :: rest =>
      let lit := "non-existent item ".data ++ [aposC]
      if lit.isPrefixOf s then
        let cap := (s.drop lit.length).takeWhile (· ≠ aposC)
        if cap ≠ [] ∧ ((s.drop lit.length).drop cap.length).head? = some aposC
        then some cap
        else extractTargetF fuel rest
      else extractTargetF fuel rest

def extractTarget (s : Str) : Option Str := extractTargetF (s.length + 1) s

def setItemG (g : GianttGraph) (it : GianttItem) : GianttGraph :=
  ⟨g.items.map (fun x => if x.id = it.id then it else x)⟩

def eraseRel (rels : List (Str × List Str)) (k : Str) (target : Str)
    : List (Str × List Str) :=
  (rels.map (fun p => if p.1 = k then (p.1, p.2.erase target) else p)).filter
    (fun p => ¬ (p.1 = k ∧ p.2 = []))

/-- `GianttDoctor._fix_dangling_reference`. -/
def fixDangling (g : GianttGraph) (iss : Issue) : GianttGraph × Bool :=
  match lookupG g iss.item_id with
  | none => (g, false)
  | some item =>
    match relationTypes.find? (fun r => substrB (lowerS r.name) (lowerS iss.message)) with
    | none => (g, false)
    | some r =>
      match extractTarget iss.message with
      | none => (g, false)
      | some target =>
        match relLookup item r.name with
        | some targets =>
          if target ∈ targets then
            (setItemG g { item with relations := eraseRel item.relations r.name target }, true)
          else (g, false)
        | none => (g, false)

/-- `dict.setdefault(key, [])` followed by a conditional append. -/
def setdefaultAppend (rels : List (Str × List Str)) (k : Str) (v : Str)
    : List (Str × List Str) :=
  match lookupTab rels k with
  | some targets =>
    if v ∈ targets then rels
    else rels.map (fun p => if p.1 = k then (p.1, p.2 ++ [v]) else p)
  | none => rels ++ [(k, [v])]

/-- `GianttDoctor._fix_incomplete_chain` (the `parts[5]` access is
guarded in Python only by `len(parts) < 4`; the fixes generated by
`_check_chains` always have six parts, and the model reads a default for
shorter ones where Python would raise `IndexError`). -/
def fixChain (g : GianttGraph) (iss : Issue) : GianttGraph × Bool :=
  if iss.related_ids = [] ∨ iss.suggested_fix = none ∨ iss.suggested_fix = some [] then
    (g, false)
  else
    match lookupG g iss.item_id, lookupG g (iss.related_ids.headI) with
    | some _, some _ =>
      let parts := splitWs ((iss.suggested_fix).getD [])
      if parts.length < 4 then (g, false)
      else
        let targetId := parts.getD 2 []
        let action := parts.getD 3 []
        let relName := if parts.length > 4 then some ((parts.getD 4 []).map Char.toUpper) else none
        if targetId ≠ iss.item_id ∧ targetId ≠ iss.related_ids.headI then (g, false)
        else
          match relName with
          | some rn =>
            if substrB "add".data (lowerS action) then
              match lookupG g targetId with
              | none => (g, false)
              | some targetItem =>
                (setItemG g { targetItem with
                  relations := setdefaultAppend targetItem.relations rn (parts.getD 5 []) }, true)
            else (g, false)
          | none => (g, false)
    | _, _ => (g, false)

/-- `GianttDoctor._fix_issue`. -/
def fixIssue (g : GianttGraph) (iss : Issue) : GianttGraph × Bool :=
  match iss.type with
  | .DANGLING_REFERENCE => fixDangling g iss
  | .INCOMPLETE_CHAIN => fixChain g iss
  | _ => (g, false)

/-- `GianttDoctor.fix_issues` on an explicit issue list: returns the
mutated graph, the fixed issues and the remaining live issues. -/
def fixIssues (g : GianttGraph) (issues : List Issue)
    (typeFilter : Option IssueType := none) (idFilter : Option Str := none)
    : GianttGraph × List Issue × List Issue :=
  let toFix := (issues.filter (fun i => match typeFilter with
      | some t => i.type = t
      | none => true)).filter (fun i => match idFilter with
      | some iid => i.item_id = iid
      | none => true)
  let res := toFix.foldl (fun (acc : GianttGraph × List Issue) iss =>
      let r := fixIssue acc.1 iss
      (r.1, if r.2 then acc.2 ++ [iss] else acc.2)) (g, [])
  (res.1, res.2, res.2.foldl (fun live f => live.erase f) issues)

/-! ## Concrete instances used by the theorems -/

def c1Window : TimeConstraint :=
  { type := .WINDOW, duration := ⟨[⟨5, "d".data⟩]⟩ }

/-- A valid item carrying a time constraint. -/
def c1Item : GianttItem :=
  { id := "a".data, title := "t".data, duration := ⟨[⟨1, "d".data⟩]⟩,
    charts := ["c".data], time_constraint := some c1Window }

/-- The line `to_string` produces for `c1Item` (no `@@@` section). -/
def c1Line : Str := "○ a 1d \"t\" \x7b\"c\"\x7d".data

/-- A line that does carry an `@@@` time-constraint section. -/
def c1TcLine : Str := "○ a 1d \"t\" \x7b\"c\"\x7d >>> ⊢[b] @@@ window(5d,warn)".data

def mkLogEntry (t : Int) (m : Str) : LogEntry :=
  { session := "s".data, timestamp := t, message := m, tags := ["s".data] }

def c2e3 : LogEntry := mkLogEntry 3 "first".data
def c2e1 : LogEntry := mkLogEntry 1 "second".data
def c2e2 : LogEntry := mkLogEntry 2 "third".data

def c2Store1 : LogCollection := addEntry ⟨[]⟩ c2e3
def c2Store2 : LogCollection := addEntry c2Store1 c2e1
def c2Store3 : LogCollection := addEntry c2Store2 c2e2

def mkReqItem (i : Str) (reqs : List Str) : GianttItem :=
  { id := i, title := i, duration := ⟨[⟨1, "d".data⟩]⟩,
    relations := [("REQUIRES".data, reqs)] }

def c4Graph : GianttGraph :=
  ⟨[mkReqItem "A".data ["B".data], mkReqItem "B".data ["C".data],
    mkReqItem "C".data ["A".data]]⟩

def c6ItemA : GianttItem :=
  { id := "a".data, title := "zzz".data, duration := ⟨[⟨1, "d".data⟩]⟩ }

def c6ItemB : GianttItem :=
  { id := "b".data, title := "xax".data, duration := ⟨[⟨1, "d".data⟩]⟩ }

/-- `c6ItemA.id = "a"` exactly, while `c6ItemB`'s title contains `"a"`. -/
def c6Graph : GianttGraph := ⟨[c6ItemA, c6ItemB]⟩

def c7SuffItem : GianttItem :=
  { id := "a".data, title := "a".data,
    relations := [("SUFFICIENT".data, ["b".data])] }

def c7AnyofItem : GianttItem :=
  { id := "b".data, title := "b".data,
    relations := [("ANYOF".data, ["a".data])] }

def c7PlainItem : GianttItem := { id := "a".data, title := "a".data }

/-- A bidirectional SUFFICIENT/ANYOF pair. -/
def c7BidirGraph : GianttGraph := ⟨[c7SuffItem, c7AnyofItem]⟩

/-- `b` has ANYOF → `a` but `a` lacks SUFFICIENT → `b`. -/
def c7OneDirGraph : GianttGraph := ⟨[c7PlainItem, c7AnyofItem]⟩

def c8Item : GianttItem :=
  { id := "x".data, title := "x".data,
    relations := [("REQUIRES".data, ["y".data])] }

def c8Graph : GianttGraph := ⟨[c8Item]⟩

def c8Fixed : GianttGraph × List Issue × List Issue :=
  fixIssues c8Graph (fullDiagnosis c8Graph)

/-- The validity of a duration value: every part's unit is in the unit
table (exactly the values `Duration.parse` and the class invariant of
`DurationPart.__post_init__` can produce; an invalid unit would make
`total_seconds` raise `KeyError` in Python). -/
def validDuration (d : Duration) : Prop := ∀ p ∈ d.parts, validUnit p.unit = true

instance validDurationDec (d : Duration) : Decidable (validDuration d) :=
  List.decidableBAll _ d.parts

def c5d1 : Duration := ⟨[⟨1, "d".data⟩]⟩

def c5d2 : Duration := ⟨[⟨12, "h".data⟩]⟩

def c5small1 : Duration := ⟨[⟨1/2, "s".data⟩]⟩

def c5small2 : Duration := ⟨[⟨1/4, "s".data⟩]⟩

/-- The match list of `find_by_substring`. -/
def queryMatches (g : GianttGraph) (q : Str) : List GianttItem :=
  g.items.filter (fun it => substrB (lowerS q) (lowerS it.title) || q == it.id)

/-- Ids of the emitted items of a Kahn state. -/
def eids (s : KState) : List Str := s.emitted.map GianttItem.id

/-- The in-degree the Python dict holds for `k` once the sources listed
in `em` have been popped: the number of present-REQUIRES edges into `k`
from items not yet emitted. -/
def degSpec (g : GianttGraph) (em : List Str) (k : Str) : Nat :=
  (g.items.filter (fun s2 => k ∈ adjTargets g s2 ∧ s2.id ∉ em)).length

def keysNodup (g : GianttGraph) : Prop := (g.items.map GianttItem.id).Nodup

/-- The invariant of the Kahn while-loop. -/
structure GoodK (g : GianttGraph) (s : KState) : Prop where
  emitted_mem : ∀ it ∈ s.emitted, it ∈ g.items
  emitted_nodup : (eids s).Nodup
  queue_mem : ∀ q ∈ s.queue, q ∈ keysG g
  queue_nodup : s.queue.Nodup
  queue_fresh : ∀ q ∈ s.queue, q ∉ eids s
  indeg_keys : s.indeg.map Prod.fst = keysG g
  indeg_val : ∀ k ∈ keysG g, lookupTab s.indeg k = some (degSpec g (eids s) k)
  zero_iff : ∀ k ∈ keysG g, (degSpec g (eids s) k = 0 ↔ k ∈ eids s ∨ k ∈ s.queue)

/-- The strict version of the `(depth, id)` ordering (strict on distinct
ids). -/
def ltP (g : GianttGraph) (a b : GianttItem) : Prop :=
  rLe g a b ∧ a.id ≠ b.id

/-! # Theorems -/

/-- **C1** (code_bug evidence).  The item/line codec does not round-trip
time constraints: `to_string` never emits an `@@@` section, so parsing
the formatted line of a valid item with a time constraint yields an item
whose constraint is `None`; and a line that *does* carry an `@@@`
section makes `from_string` pass the raw constraint *string* into the
type-checked `GianttItem.__init__`, raising `TypeError`. -/
theorem c1_roundtrip_loses_constraint :
    c1Item.time_constraint = some c1Window
    ∧ itemToStr c1Item = .ok c1Line
    ∧ substrB "@@@".data c1Line = false
    ∧ (itemFromStr c1Line).map GianttItem.time_constraint = .ok none
    ∧ itemFromStr c1TcLine =
        .error "TypeError: time_constraint must be a TimeConstraint or None".data := by
  refine ⟨rfl, ?_, ?_, ?_, ?_⟩ <;> rfl

/-- **C2** (code_bug evidence).  `add_entry` inserts at
`get_first_index_after_timestamp(...) + 1`, which places an entry with a
timestamp smaller than every existing one at position 1 instead of 0 and
an intermediate timestamp one slot too far right: inserting timestamps
3, 1, 2 into an empty store leaves `[3]`, then `[3, 1]`, then
`[3, 1, 2]`, so the store is *not* in non-decreasing timestamp order
after the second and third inserts. -/
theorem c2_add_entry_breaks_order :
    c2Store1.entries.map LogEntry.timestamp = [3]
    ∧ c2Store2.entries.map LogEntry.timestamp = [3, 1]
    ∧ c2Store3.entries.map LogEntry.timestamp = [3, 1, 2]
    ∧ ¬ timeSorted c2Store2.entries
    ∧ ¬ timeSorted c2Store3.entries := by
  refine ⟨rfl, rfl, rfl, ?_, ?_⟩ <;> decide

/-- **C4**.  On the three-cycle `A →REQUIRES→ B →REQUIRES→ C →REQUIRES→ A`
the sort raises `CycleDetected` carrying a rotation of `[A, B, C]` with
the start id repeated at the end (concretely `[A, B, C, A]`). -/
theorem c4_cycle_detected :
    ∃ cyc, topologicalSort c4Graph = .error (.cycleDetected cyc)
      ∧ ∃ k, k < 3
        ∧ cyc = (["A".data, "B".data, "C".data].rotate k)
            ++ [(["A".data, "B".data, "C".data].rotate k).headI] := by
  refine ⟨["A".data, "B".data, "C".data, "A".data], ?_, 0, by decide, by decide⟩
  rfl

/-- **C7** (code_bug evidence).  `_check_chains` reads relation key
`'ANY'` although items store the ANYOF relation under `'ANYOF'`: the
bidirectional pair (`a` SUFFICIENT → `b`, `b` ANYOF → `a`) is reported
as one INCOMPLETE_CHAIN issue (the claim expects none), and the
one-directional `b` ANYOF → `a` with no reverse SUFFICIENT entry is
reported as no issue at all (the claim expects exactly one). -/
theorem c7_chain_check_reads_wrong_key :
    (fullDiagnosis c7BidirGraph).map (fun i => (i.type, i.item_id, i.related_ids))
      = [(.INCOMPLETE_CHAIN, "a".data, ["b".data])]
    ∧ fullDiagnosis c7OneDirGraph = [] := by
  exact ⟨rfl, rfl⟩

/-- **C8**.  A graph with item `x` whose REQUIRES list names the absent
`y` yields exactly one DANGLING_REFERENCE issue for `x` referencing `y`;
applying the doctor's fix removes `y` from `x`'s REQUIRES list (the
then-empty relation entry is deleted), and a fresh diagnosis reports no
issues. -/
theorem c8_dangling_reference_fix :
    (fullDiagnosis c8Graph).map (fun i => (i.type, i.item_id, i.related_ids))
      = [(.DANGLING_REFERENCE, "x".data, ["y".data])]
    ∧ c8Fixed.2.1 = fullDiagnosis c8Graph
    ∧ c8Fixed.2.2 = []
    ∧ (lookupG c8Fixed.1 "x".data).map GianttItem.relations = some []
    ∧ fullDiagnosis c8Fixed.1 = [] := by
  exact ⟨rfl, rfl, rfl, rfl, rfl⟩

/-! ## Duration addition (C5) -/

theorem unitsDesc_eq : unitsDesc =
    [("y".data, 31536000), ("mo".data, 2592000), ("w".data, 604800), ("d".data, 86400),
     ("h".data, 3600), ("hr".data, 3600), ("min".data, 60), ("s".data, 1)] := by decide

theorem unitSeconds_of_mem : ∀ p ∈ unitSecondsTable, unitSeconds p.1 = p.2 := by decide

theorem unitSeconds_pos : ∀ p ∈ unitSecondsTable, (0:ℚ) < p.2 := by decide

theorem one_le_unitSeconds : ∀ p ∈ unitSecondsTable, (1:ℚ) ≤ p.2 := by decide

theorem mem_unitsDesc_iff {p : Str × ℚ} : p ∈ unitsDesc ↔ p ∈ unitSecondsTable :=
  (List.perm_insertionSort _ unitSecondsTable).mem_iff

theorem unitsDesc_pairwise :
    unitsDesc.Pairwise (fun a b : Str × ℚ => b.2 ≤ a.2) := by
  rw [unitsDesc_eq]
  norm_num [List.pairwise_cons]

/-- In a descending-sorted unit list, `find?` returns a unit at least as
large as every unit that fits under `t`. -/
theorem sorted_find_max {t : ℚ} :
    ∀ l : List (Str × ℚ), l.Pairwise (fun a b => b.2 ≤ a.2) →
      ∀ u, l.find? (fun p => t ≥ p.2) = some u →
      ∀ v ∈ l, v.2 ≤ t → v.2 ≤ u.2 := by
  intro l
  induction l with
  | nil => intro _ u hfind; simp at hfind
  | cons h rest ih =>
    intro hl u hfind v hv hvt
    rcases List.pairwise_cons.mp hl with ⟨hhead, hrest⟩
    by_cases hh : t ≥ h.2
    · rw [List.find?_cons_of_pos rest (by simpa using hh)] at hfind
      have hu : h = u := Option.some.inj hfind
      rcases List.mem_cons.mp hv with rfl | hv'
      · exact le_of_eq (congrArg Prod.snd hu)
      · exact le_trans (hhead v hv') (le_of_eq (congrArg Prod.snd hu))
    · rw [List.find?_cons_of_neg rest (by simpa using hh)] at hfind
      rcases List.mem_cons.mp hv with rfl | hv'
      · exact absurd hvt hh
      · exact ih hrest u hfind v hv' hvt

/-- `Duration.__add__` unfolded to its branch structure. -/
theorem add_eq (a b : Duration) :
    Duration.add a b =
      (match unitsDesc.find? (fun p => a.totalSeconds + b.totalSeconds ≥ p.2) with
        | some p => ⟨[⟨(a.totalSeconds + b.totalSeconds) / p.2, p.1⟩]⟩
        | none => ⟨[⟨a.totalSeconds + b.totalSeconds, "s".data⟩]⟩) := rfl

theorem add_totalSeconds (a b : Duration) :
    (Duration.add a b).totalSeconds = a.totalSeconds + b.totalSeconds := by
  rw [add_eq]
  rcases hfind : unitsDesc.find? (fun p => a.totalSeconds + b.totalSeconds ≥ p.2) with _ | p
  · rw [hfind]
    simp only [Duration.totalSeconds, DurationPart.totalSeconds, List.map_cons, List.map_nil,
      List.sum_cons, List.sum_nil, add_zero]
    rw [show unitSeconds "s".data = 1 from rfl, mul_one]
  · rw [hfind]
    have hp : p ∈ unitSecondsTable := mem_unitsDesc_iff.mp (List.mem_of_find?_eq_some hfind)
    have hsec : unitSeconds p.1 = p.2 := unitSeconds_of_mem p hp
    have hpos : (0:ℚ) < p.2 := unitSeconds_pos p hp
    simp only [Duration.totalSeconds, DurationPart.totalSeconds, List.map_cons, List.map_nil,
      List.sum_cons, List.sum_nil, add_zero, hsec]
    exact div_mul_cancel₀ _ (ne_of_gt hpos)

theorem add_small (a b : Duration) (h : a.totalSeconds + b.totalSeconds < 1) :
    (Duration.add a b).parts = [⟨a.totalSeconds + b.totalSeconds, "s".data⟩] := by
  have hnone : unitsDesc.find? (fun p => a.totalSeconds + b.totalSeconds ≥ p.2) = none := by
    apply List.find?_eq_none.mpr
    intro p hp
    have h1 : (1:ℚ) ≤ p.2 := one_le_unitSeconds p (mem_unitsDesc_iff.mp hp)
    simp only [ge_iff_le, decide_eq_true_eq, not_le]
    linarith
  rw [add_eq, hnone]

theorem add_big (a b : Duration) (h : 1 ≤ a.totalSeconds + b.totalSeconds) :
    ∃ u s, (Duration.add a b).parts = [⟨(a.totalSeconds + b.totalSeconds) / s, u⟩]
      ∧ (u, s) ∈ unitSecondsTable ∧ s ≤ a.totalSeconds + b.totalSeconds
      ∧ ∀ v ∈ unitSecondsTable, v.2 ≤ a.totalSeconds + b.totalSeconds → v.2 ≤ s := by
  rw [add_eq]
  rcases hfind : unitsDesc.find? (fun p => a.totalSeconds + b.totalSeconds ≥ p.2) with _ | p
  · exfalso
    have := List.find?_eq_none.mp hfind ("s".data, 1)
      (mem_unitsDesc_iff.mpr (by decide))
    simp only [ge_iff_le, decide_eq_true_eq, not_le] at this
    linarith
  · refine ⟨p.1, p.2, ?_, ?_, ?_, ?_⟩
    · rw [hfind]
    · exact mem_unitsDesc_iff.mp (List.mem_of_find?_eq_some hfind)
    · have := List.find?_some hfind
      simpa using this
    · intro v hv hvt
      exact sorted_find_max unitsDesc unitsDesc_pairwise p hfind v (mem_unitsDesc_iff.mpr hv) hvt

theorem fracStep (fuel : Nat) (q : ℚ) (h : q ≠ 0) :
    fracDigitsF (fuel + 1) q
      = Char.ofNat (48 + (⌊q * 10⌋).toNat) :: fracDigitsF fuel (q * 10 - ⌊q * 10⌋) := by
  simp [fracDigitsF, h]

theorem fracZero (fuel : Nat) : fracDigitsF fuel 0 = [] := by
  cases fuel <;> simp [fracDigitsF]

theorem fracHalf : fracDigitsF 32 ((1:ℚ)/2) = ['5'] := by
  rw [show (32:ℕ) = 31 + 1 from rfl, fracStep 31 _ (by norm_num)]
  rw [show ((1:ℚ)/2) * 10 = 5 from by norm_num]
  rw [show ⌊(5:ℚ)⌋ = 5 from by simp]
  rw [show (5:ℚ) - ((5:ℤ):ℚ) = 0 from by norm_num]
  rw [fracZero]
  rfl

theorem rat_three_halves : (3:ℚ)/2 = (⟨3, 2, by norm_num, by norm_num⟩ : ℚ) := by
  rw [Rat.mk'_eq_divInt, Rat.divInt_eq_div]
  norm_num

theorem renderQ_three_halves : renderQ ((3:ℚ)/2) = "1.5".data := by
  have hfl : ⌊(3:ℚ)/2⌋ = 1 := by
    rw [Int.floor_eq_iff]
    constructor <;> norm_num
  have hden : ((3:ℚ)/2).den = 2 := by rw [rat_three_halves]
  rw [renderQ, if_neg (by norm_num)]
  rw [renderQnn, if_neg (by rw [hden]; norm_num)]
  rw [hfl]
  rw [show ((3:ℚ)/2 - ((1:ℤ):ℚ)) = 1/2 from by norm_num]
  rw [fracHalf]
  rfl

theorem render_single (q : ℚ) (u : Str) :
    (⟨[⟨q, u⟩]⟩ : Duration).render = renderQ q ++ u := by
  simp [Duration.render, DurationPart.render]

theorem c5_concrete_add : Duration.add c5d1 c5d2 = ⟨[⟨(3:ℚ)/2, "d".data⟩]⟩ := by
  have ht : c5d1.totalSeconds + c5d2.totalSeconds = (129600:ℚ) := by
    simp only [c5d1, c5d2, Duration.totalSeconds, DurationPart.totalSeconds, List.map_cons,
      List.map_nil, List.sum_cons, List.sum_nil, add_zero]
    rw [show unitSeconds "d".data = (86400:ℚ) from rfl,
      show unitSeconds "h".data = (3600:ℚ) from rfl]
    norm_num
  rw [add_eq, ht]
  rw [show unitsDesc.find? (fun p => (129600:ℚ) ≥ p.2) = some ("d".data, (86400:ℚ)) from by decide]
  simp only [Duration.mk.injEq, List.cons.injEq, DurationPart.mk.injEq, and_true]
  norm_num

/-- **C5 counterexample**.  Adding the valid durations `0.5s` and
`0.25s` (total `0.75` seconds) produces the single part `0.75s`, whose
unit `s` has per-unit seconds `1 > 0.75`: no unit of the table fits
under the total, so the result is *not* "a single part expressed in the
largest unit whose per-unit seconds value is ≤ the total" as the claim
requires of every pair of valid durations. -/
theorem c5_subsecond_counterexample :
    validDuration c5small1 ∧ validDuration c5small2
    ∧ (Duration.add c5small1 c5small2).parts = [⟨3/4, "s".data⟩]
    ∧ unitSeconds "s".data = 1
    ∧ ¬ ((1:ℚ) ≤ 3/4) := by
  refine ⟨by decide, by decide, ?_, rfl, by norm_num⟩
  have h1 : c5small1.totalSeconds + c5small2.totalSeconds = (3:ℚ)/4 := by
    simp only [c5small1, c5small2, Duration.totalSeconds, DurationPart.totalSeconds,
      List.map_cons, List.map_nil, List.sum_cons, List.sum_nil, add_zero]
    rw [show unitSeconds "s".data = 1 from rfl]
    norm_num
  rw [add_small c5small1 c5small2 (by rw [h1]; norm_num), h1]

/-- **C5 amended**.  For all valid durations the sum's total seconds is
exact; when the total is at least one second the result is a single part
in the largest unit whose per-unit seconds is ≤ the total, and when it
is below one second the result falls back to a single part in seconds.
In particular `parse("1d") + parse("12h")` totals `129600` seconds and
formats as `"1.5d"`. -/
theorem c5_add_amended (a b : Duration) (ha : validDuration a) (hb : validDuration b) :
    (Duration.add a b).totalSeconds = a.totalSeconds + b.totalSeconds
    ∧ (1 ≤ a.totalSeconds + b.totalSeconds →
        ∃ u s, (Duration.add a b).parts = [⟨(a.totalSeconds + b.totalSeconds) / s, u⟩]
          ∧ (u, s) ∈ unitSecondsTable ∧ s ≤ a.totalSeconds + b.totalSeconds
          ∧ ∀ v ∈ unitSecondsTable, v.2 ≤ a.totalSeconds + b.totalSeconds → v.2 ≤ s)
    ∧ (a.totalSeconds + b.totalSeconds < 1 →
        (Duration.add a b).parts = [⟨a.totalSeconds + b.totalSeconds, "s".data⟩])
    ∧ Duration.parse "1d".data = .ok c5d1
    ∧ Duration.parse "12h".data = .ok c5d2
    ∧ (Duration.add c5d1 c5d2).totalSeconds = 129600
    ∧ (Duration.add c5d1 c5d2).render = "1.5d".data := by
  refine ⟨add_totalSeconds a b, add_big a b, add_small a b, rfl, rfl, ?_, ?_⟩
  · rw [c5_concrete_add]
    simp only [Duration.totalSeconds, DurationPart.totalSeconds, List.map_cons, List.map_nil,
      List.sum_cons, List.sum_nil, add_zero]
    rw [show unitSeconds "d".data = (86400:ℚ) from rfl]
    norm_num
  · rw [c5_concrete_add, render_single, renderQ_three_halves]
    rfl

theorem c5_add_amended_witness :
    (Duration.add c5d1 c5d2).totalSeconds = c5d1.totalSeconds + c5d2.totalSeconds :=
  (c5_add_amended c5d1 c5d2 (by decide) (by decide)).1

/-! ## findBySubstring (C6) -/

/-- **C6 counterexample**.  With item `a` (title `zzz`) and item `b`
(title `xax`), the query `"a"` matches `a` by exact id and `b` by title
substring; `find_by_substring` raises the multiple-match error instead
of returning the exact-id item, so an exact-id match does *not* win over
substring ambiguity. -/
theorem c6_exact_id_not_prioritized :
    lookupG c6Graph "a".data = some c6ItemA
    ∧ findBySubstring c6Graph "a".data = .error (.multipleMatches ["a".data, "b".data]) :=
  ⟨rfl, rfl⟩

/-- **C6 amended**.  `find_by_substring` returns the unique item whose
id equals the query or whose title contains it case-insensitively,
fails with the not-found error when nothing matches, and fails with the
multiple-match error whenever *more than one* item matches — including
when one of the matches is an exact id match. -/
theorem c6_find_by_substring_amended (g : GianttGraph) (q : Str) :
    (queryMatches g q = [] → findBySubstring g q = .error (.notFound q))
    ∧ (∀ x, queryMatches g q = [x] → findBySubstring g q = .ok x)
    ∧ (2 ≤ (queryMatches g q).length →
        findBySubstring g q = .error (.multipleMatches ((queryMatches g q).map GianttItem.id))) := by
  have hdef : findBySubstring g q =
      (match queryMatches g q with
        | [] => .error (.notFound q)
        | [m] => .ok m
        | ms => .error (.multipleMatches (ms.map GianttItem.id))) := rfl
  refine ⟨fun h => ?_, fun x h => ?_, fun h => ?_⟩
  · rw [hdef, h]
  · rw [hdef, h]
  · rcases hm : queryMatches g q with _ | ⟨x, _ | ⟨y, t⟩⟩
    · rw [hm] at h; simp at h
    · rw [hm] at h; simp at h
    · rw [hdef, hm]

theorem c6_find_by_substring_amended_witness :
    findBySubstring (⟨[c6ItemA]⟩ : GianttGraph) "a".data = .ok c6ItemA :=
  (c6_find_by_substring_amended ⟨[c6ItemA]⟩ "a".data).2.1 c6ItemA rfl

/-! ## TimeConstraint parsing (C9, C10) -/

/-- **C9 counterexample**.  A consequence field of the bare form
`escalate:<glyph>` is rejected: `_parse_consequence` only recognizes
`escalate:` as the *second* comma-separated part, so
`window(5d,escalate:!)` raises instead of parsing to an ESCALATING
constraint. -/
theorem c9_bare_escalate_rejected :
    TimeConstraint.fromStr "window(5d,escalate:!)".data
      = .error "ValueError: not a valid ConsequenceType: escalate:!".data := rfl

/-- **C9 amended**.  Escalation is written as a second comma part after
a base consequence: for every escalation-rate glyph other than LOWEST
(whose commas are themselves split separators and therefore parse as
NEUTRAL), `window(5d,warn,escalate:<glyph>)` parses to an ESCALATING
constraint with the rate named by the glyph (NEUTRAL when the glyph is
empty); a bare `escalate:<glyph>` consequence fails with a format
error. -/
theorem c9_escalate_as_second_part (r : EscalationRate) (hr : r ≠ .LOWEST) :
    TimeConstraint.fromStr ("window(5d,warn,escalate:".data ++ r.value ++ ")".data)
      = .ok (some { type := .WINDOW, duration := ⟨[⟨5, "d".data⟩]⟩,
                    consequence_type := .ESCALATING, escalation_rate := r })
    ∧ TimeConstraint.fromStr "window(5d,warn,escalate:,,,)".data
      = .ok (some { type := .WINDOW, duration := ⟨[⟨5, "d".data⟩]⟩,
                    consequence_type := .ESCALATING, escalation_rate := .NEUTRAL })
    ∧ (∀ tc, TimeConstraint.fromStr "window(5d,escalate:!)".data ≠ .ok tc) := by
  refine ⟨?_, rfl, fun tc => ?_⟩
  · cases r with
    | LOWEST => exact absurd rfl hr
    | LOW => rfl
    | NEUTRAL => rfl
    | UNSURE => rfl
    | MEDIUM => rfl
    | HIGH => rfl
    | CRITICAL => rfl
  · intro hcontra
    rw [c9_bare_escalate_rejected] at hcontra
    exact Except.noConfusion hcontra

theorem c9_escalate_as_second_part_witness :
    TimeConstraint.fromStr ("window(5d,warn,escalate:".data
        ++ EscalationRate.MEDIUM.value ++ ")".data)
      = .ok (some { type := .WINDOW, duration := ⟨[⟨5, "d".data⟩]⟩,
                    consequence_type := .ESCALATING, escalation_rate := .MEDIUM }) :=
  (c9_escalate_as_second_part .MEDIUM (by decide)).1

/-- **C10**.  `TimeConstraint.from_string("")` returns `None` even
though none of the three constraint grammars matches the empty string,
while every other input matched by none of the grammars raises the
format error. -/
theorem c10_empty_constraint_is_none :
    TimeConstraint.fromStr [] = .ok none
    ∧ winMatch [] = none ∧ dueMatch [] = none ∧ everyMatch [] = none
    ∧ ∀ s : Str, s ≠ [] → winMatch s = none → dueMatch s = none → everyMatch s = none →
        TimeConstraint.fromStr s = .error ("Invalid time constraint format: ".data ++ s) := by
  refine ⟨rfl, rfl, rfl, rfl, fun s hs hw hd he => ?_⟩
  rw [TimeConstraint.fromStr, if_neg hs, hw, hd, he]

theorem c10_empty_constraint_is_none_witness :
    TimeConstraint.fromStr "x".data
      = .error ("Invalid time constraint format: ".data ++ "x".data) :=
  c10_empty_constraint_is_none.2.2.2.2 "x".data (by decide) rfl rfl rfl

/-! ## Deterministic topological sort (C3): list and lookup lemmas -/

theorem mem_dedupF {x : Str} : ∀ {l : List Str}, x ∈ dedupF l ↔ x ∈ l := by
  intro l
  induction l with
  | nil => simp [dedupF]
  | cons h rest ih =>
    simp only [dedupF, List.mem_cons, List.mem_filter]
    constructor
    · rintro (rfl | ⟨hx, _⟩)
      · exact .inl rfl
      · exact .inr (ih.mp hx)
    · rintro (rfl | hx)
      · exact .inl rfl
      · by_cases hxh : x = h
        · exact .inl hxh
        · exact .inr ⟨ih.mpr hx, by simpa using hxh⟩

theorem dedupF_nodup : ∀ (l : List Str), (dedupF l).Nodup := by
  intro l
  induction l with
  | nil => simp [dedupF]
  | cons h rest ih =>
    simp only [dedupF]
    refine List.Nodup.cons ?_ (ih.filter _)
    intro hmem
    exact absurd (List.of_mem_filter hmem) (by simp)

theorem lookupG_mem {g : GianttGraph} {i : Str} {it : GianttItem}
    (h : lookupG g i = some it) : it ∈ g.items ∧ it.id = i := by
  refine ⟨List.mem_of_find?_eq_some h, ?_⟩
  have := List.find?_some h
  simpa using this

theorem eq_of_mem_of_id : ∀ {l : List GianttItem}, (l.map GianttItem.id).Nodup →
    ∀ {x y : GianttItem}, x ∈ l → y ∈ l → x.id = y.id → x = y := by
  intro l
  induction l with
  | nil => intro _ x y hx; simp at hx
  | cons h rest ih =>
    intro hnd x y hx hy hxy
    rcases List.nodup_cons.mp
      (show (h.id :: rest.map GianttItem.id).Nodup from hnd) with ⟨hhead, hrest⟩
    rcases List.mem_cons.mp hx with rfl | hx' <;> rcases List.mem_cons.mp hy with rfl | hy'
    · rfl
    · exact absurd (by rw [hxy]; exact List.mem_map_of_mem GianttItem.id hy') hhead
    · exact absurd (by rw [← hxy]; exact List.mem_map_of_mem GianttItem.id hx') hhead
    · exact ih hrest hx' hy' hxy

theorem lookupG_self {g : GianttGraph} (hnd : keysNodup g) {it : GianttItem}
    (hit : it ∈ g.items) : lookupG g it.id = some it := by
  rcases hfind : lookupG g it.id with _ | it2
  · exfalso
    have := List.find?_eq_none.mp hfind it hit
    simp at this
  · rcases lookupG_mem hfind with ⟨hmem, hid⟩
    rw [eq_of_mem_of_id hnd hmem hit hid]

theorem mem_keysG_iff {g : GianttGraph} {i : Str} :
    i ∈ keysG g ↔ ∃ it ∈ g.items, it.id = i := by
  simp [keysG]

theorem containsId_iff_keys {g : GianttGraph} (hnd : keysNodup g) {i : Str} :
    containsId g i = true ↔ i ∈ keysG g := by
  constructor
  · intro h
    rcases Option.isSome_iff_exists.mp h with ⟨it, hit⟩
    exact mem_keysG_iff.mpr ⟨it, (lookupG_mem hit).1, (lookupG_mem hit).2⟩
  · intro h
    rcases mem_keysG_iff.mp h with ⟨it, hmem, hid⟩
    rw [containsId, ← hid, lookupG_self hnd hmem]
    rfl

theorem lookupG_eq_of_perm {g1 g2 : GianttGraph} (hperm : g1.items.Perm g2.items)
    (hnd : keysNodup g1) : ∀ i, lookupG g1 i = lookupG g2 i := by
  intro i
  have hnd2 : keysNodup g2 := (hperm.map GianttItem.id).nodup_iff.mp hnd
  rcases h1 : lookupG g1 i with _ | it1
  · rcases h2 : lookupG g2 i with _ | it2
    · rfl
    · exfalso
      rcases lookupG_mem h2 with ⟨hmem2, hid2⟩
      have := List.find?_eq_none.mp h1 it2 (hperm.mem_iff.mpr hmem2)
      simp [hid2] at this
  · rcases lookupG_mem h1 with ⟨hmem1, hid1⟩
    rw [← hid1, lookupG_self hnd2 (hperm.mem_iff.mp hmem1)]

/-! ## The (depth, id) order -/

theorem strLtB_irrefl : ∀ s : Str, strLtB s s = false := by
  intro s
  induction s with
  | nil => rfl
  | cons c rest ih => simp [strLtB, ih]

theorem strLtB_trans : ∀ {a b c : Str},
    strLtB a b = true → strLtB b c = true → strLtB a c = true := by
  intro a
  induction a with
  | nil =>
    intro b c hab hbc
    cases b with
    | nil => simp [strLtB] at hab
    | cons y ys =>
      cases c with
      | nil => simp [strLtB] at hbc
      | cons z zs => simp [strLtB]
  | cons x xs ih =>
    intro b c hab hbc
    cases b with
    | nil => simp [strLtB] at hab
    | cons y ys =>
      cases c with
      | nil => simp [strLtB] at hbc
      | cons z zs =>
        simp only [strLtB, Bool.or_eq_true, Bool.and_eq_true, decide_eq_true_eq] at hab hbc ⊢
        rcases hab with hxy | ⟨hxy, hab'⟩ <;> rcases hbc with hyz | ⟨hyz, hbc'⟩
        · exact .inl (lt_trans hxy hyz)
        · exact .inl (hyz ▸ hxy)
        · exact .inl (hxy ▸ hyz)
        · exact .inr ⟨hxy.trans hyz, ih hab' hbc'⟩

theorem strLtB_total : ∀ a b : Str, strLtB a b = true ∨ a = b ∨ strLtB b a = true := by
  intro a
  induction a with
  | nil =>
    intro b
    cases b with
    | nil => exact .inr (.inl rfl)
    | cons y ys => exact .inl (by simp [strLtB])
  | cons x xs ih =>
    intro b
    cases b with
    | nil => exact .inr (.inr (by simp [strLtB]))
    | cons y ys =>
      rcases lt_trichotomy x y with hxy | rfl | hyx
      · exact .inl (by simp [strLtB, hxy])
      · rcases ih ys with h | rfl | h
        · exact .inl (by simp [strLtB, h])
        · exact .inr (.inl rfl)
        · exact .inr (.inr (by simp [strLtB, h]))
      · exact .inr (.inr (by simp [strLtB, hyx]))

theorem rLe_total (g : GianttGraph) : ∀ a b, rLe g a b ∨ rLe g b a := by
  intro a b
  simp only [rLe, keyLeB, Bool.or_eq_true, Bool.and_eq_true, decide_eq_true_eq]
  rcases lt_trichotomy (depthD g a) (depthD g b) with h | h | h
  · exact .inl (.inl h)
  · rcases strLtB_total a.id b.id with hs | hs | hs
    · exact .inl (.inr ⟨h, .inl hs⟩)
    · exact .inl (.inr ⟨h, .inr hs⟩)
    · exact .inr (.inr ⟨h.symm, .inl hs⟩)
  · exact .inr (.inl h)

theorem rLe_trans (g : GianttGraph) : ∀ a b c, rLe g a b → rLe g b c → rLe g a c := by
  intro a b c hab hbc
  simp only [rLe, keyLeB, Bool.or_eq_true, Bool.and_eq_true, decide_eq_true_eq] at hab hbc ⊢
  rcases hab with h1 | ⟨h1, hs1⟩ <;> rcases hbc with h2 | ⟨h2, hs2⟩
  · exact .inl (lt_trans h1 h2)
  · exact .inl (h2 ▸ h1)
  · exact .inl (h1 ▸ h2)
  · refine .inr ⟨h1.trans h2, ?_⟩
    rcases hs1 with hs1 | heq1 <;> rcases hs2 with hs2 | heq2
    · exact .inl (strLtB_trans hs1 hs2)
    · exact .inl (heq2 ▸ hs1)
    · exact .inl (heq1 ▸ hs2)
    · exact .inr (heq1.trans heq2)

theorem ltP_asymm (g : GianttGraph) {a b : GianttItem} :
    ltP g a b → ltP g b a → False := by
  rintro ⟨hab, hne⟩ ⟨hba, _⟩
  simp only [rLe, keyLeB, Bool.or_eq_true, Bool.and_eq_true, decide_eq_true_eq] at hab hba
  rcases hab with h1 | ⟨h1, hs1⟩ <;> rcases hba with h2 | ⟨h2, hs2⟩
  · exact absurd (lt_trans h1 h2) (lt_irrefl _)
  · exact absurd (h2 ▸ h1) (lt_irrefl _)
  · exact absurd (h1 ▸ h2) (lt_irrefl _)
  · rcases hs1 with hs1 | heq
    · rcases hs2 with hs2 | heq2
      · exact absurd (strLtB_trans hs1 hs2) (by simp [strLtB_irrefl])
      · exact hne heq2.symm
    · exact hne heq

/-- Two strictly sorted permutations coincide. -/
theorem eq_of_perm_pairwise_lt {α : Type} (lt : α → α → Prop)
    (hasym : ∀ a b, lt a b → lt b a → False) :
    ∀ l1 l2 : List α, l1.Perm l2 → l1.Pairwise lt → l2.Pairwise lt → l1 = l2 := by
  intro l1
  induction l1 with
  | nil => intro l2 hp _ _; exact hp.nil_eq
  | cons a t1 ih =>
    intro l2 hp hp1 hp2
    cases l2 with
    | nil => exact absurd hp.eq_nil (by simp)
    | cons b t2 =>
      rcases List.pairwise_cons.mp hp1 with ⟨ha1, ht1⟩
      rcases List.pairwise_cons.mp hp2 with ⟨hb2, ht2⟩
      by_cases hab : a = b
      · subst hab
        rw [ih t2 hp.cons_inv ht1 ht2]
      · exfalso
        have hb : b ∈ a :: t1 := hp.symm.subset (by simp)
        have haa : a ∈ b :: t2 := hp.subset (by simp)
        rcases List.mem_cons.mp hb with rfl | hb'
        · exact hab rfl
        · rcases List.mem_cons.mp haa with heq | ha'
          · exact hab heq
          · exact hasym a b (ha1 b hb') (hb2 a ha')

/-! ## Kahn loop: table and counting lemmas -/

theorem setTab_cons {p : Str × Nat} {l : List (Str × Nat)} {k : Str} {v : Nat} :
    setTab (p :: l) k v = (if p.1 = k then (k, v) else p) :: setTab l k v := rfl

theorem lookupTab_cons {β : Type} (p : Str × β) (l : List (Str × β)) (k : Str) :
    lookupTab (p :: l) k = if p.1 = k then some p.2 else lookupTab l k := by
  by_cases hp : p.1 = k
  · simp [lookupTab, List.find?_cons, hp]
  · simp [lookupTab, List.find?_cons, hp]

theorem setTab_fst (ind : List (Str × Nat)) (k : Str) (v : Nat) :
    (setTab ind k v).map Prod.fst = ind.map Prod.fst := by
  induction ind with
  | nil => rfl
  | cons p rest ih =>
    rw [setTab_cons, List.map_cons, List.map_cons, ih]
    by_cases hp : p.1 = k
    · rw [if_pos hp, hp]
    · rw [if_neg hp]

theorem lookupTab_setTab_self {ind : List (Str × Nat)} {k : Str} (v : Nat)
    (h : k ∈ ind.map Prod.fst) : lookupTab (setTab ind k v) k = some v := by
  induction ind with
  | nil => simp at h
  | cons p rest ih =>
    rw [setTab_cons]
    by_cases hp : p.1 = k
    · rw [if_pos hp, lookupTab_cons, if_pos rfl]
    · rw [if_neg hp, lookupTab_cons, if_neg hp]
      apply ih
      rcases List.mem_cons.mp (show k ∈ p.1 :: rest.map Prod.fst from h) with heq | h'
      · exact absurd heq.symm hp
      · exact h'

theorem lookupTab_setTab_ne {ind : List (Str × Nat)} {k k2 : Str} (v : Nat)
    (h : k2 ≠ k) : lookupTab (setTab ind k v) k2 = lookupTab ind k2 := by
  induction ind with
  | nil => rfl
  | cons p rest ih =>
    rw [setTab_cons, lookupTab_cons, lookupTab_cons p rest k2]
    by_cases hp : p.1 = k
    · rw [if_pos hp]
      have h1 : ¬ ((k, v).1 = k2) := fun hc => h hc.symm
      have h2 : ¬ (p.1 = k2) := fun hc => h (hc.symm.trans hp)
      rw [if_neg h1, if_neg h2]
      exact ih
    · rw [if_neg hp]
      by_cases hpk2 : p.1 = k2
      · rw [if_pos hpk2, if_pos hpk2]
      · rw [if_neg hpk2, if_neg hpk2]
        exact ih

theorem lookupTab_isSome_of_mem_fst {ind : List (Str × Nat)} {k : Str}
    (h : k ∈ ind.map Prod.fst) : ∃ v, lookupTab ind k = some v := by
  induction ind with
  | nil => simp at h
  | cons p rest ih =>
    rw [lookupTab_cons]
    by_cases hp : p.1 = k
    · exact ⟨p.2, by rw [if_pos hp]⟩
    · rw [if_neg hp]
      apply ih
      rcases List.mem_cons.mp (show k ∈ p.1 :: rest.map Prod.fst from h) with heq | h'
      · exact absurd heq.symm hp
      · exact h'

/-- Monotonicity: emitting more sources never raises an in-degree. -/
theorem degSpec_mono (g : GianttGraph) (em : List Str) (node : Str) (k : Str) :
    degSpec g (em ++ [node]) k ≤ degSpec g em k := by
  simp only [degSpec, ← List.countP_eq_length_filter]
  apply List.countP_mono_left
  intro x _ hx
  simp only [decide_eq_true_eq, List.mem_append] at hx ⊢
  exact ⟨hx.1, fun hmem => hx.2 (.inl hmem)⟩

theorem degSpec_pos_of_src {g : GianttGraph} {em : List Str} {k : Str}
    {src : GianttItem} (hsrc : src ∈ g.items) (hadj : k ∈ adjTargets g src)
    (hem : src.id ∉ em) : 0 < degSpec g em k := by
  have : src ∈ g.items.filter (fun s2 => decide (k ∈ adjTargets g s2 ∧ s2.id ∉ em)) :=
    List.mem_filter.mpr ⟨hsrc, by simp [hadj, hem]⟩
  exact List.length_pos_of_mem this

theorem filter_length_em_append (Q : GianttItem → Prop) [DecidablePred Q] {node : Str}
    {em : List Str} (hnode : node ∉ em) :
    ∀ l : List GianttItem, (l.map GianttItem.id).Nodup →
      ∀ it : GianttItem, it ∈ l → it.id = node → Q it →
      (l.filter (fun x => decide (Q x ∧ x.id ∉ em ++ [node]))).length + 1
        = (l.filter (fun x => decide (Q x ∧ x.id ∉ em))).length := by
  have hother : ∀ y : GianttItem, y.id ≠ node →
      (decide (Q y ∧ y.id ∉ em ++ [node])) = (decide (Q y ∧ y.id ∉ em)) := by
    intro y hy
    simp only [decide_eq_decide, List.mem_append, List.mem_singleton]
    constructor
    · rintro ⟨hq, hn⟩
      exact ⟨hq, fun hmem => hn (.inl hmem)⟩
    · rintro ⟨hq, hn⟩
      refine ⟨hq, fun hmem => ?_⟩
      rcases hmem with hm | hm
      · exact hn hm
      · exact hy hm
  intro l
  induction l with
  | nil => intro _ it hit; simp at hit
  | cons x l' ih =>
    intro hl it hit hid hQ
    rcases List.nodup_cons.mp
      (show (x.id :: l'.map GianttItem.id).Nodup from hl) with ⟨hhead, hrest⟩
    by_cases hx : x = it
    · subst hx
      have htails : l'.filter (fun y => decide (Q y ∧ y.id ∉ em ++ [node]))
          = l'.filter (fun y => decide (Q y ∧ y.id ∉ em)) := by
        apply List.filter_congr
        intro y hy
        refine hother y ?_
        intro hynode
        exact hhead (by rw [hid, ← hynode]; exact List.mem_map_of_mem GianttItem.id hy)
      rw [List.filter_cons, List.filter_cons]
      have hc1 : (decide (Q x ∧ x.id ∉ em ++ [node])) = false := by
        simp [hid, hQ]
      have hc2 : (decide (Q x ∧ x.id ∉ em)) = true := by
        simp [hid, hQ, hnode]
      rw [hc1, hc2, htails]
      simp
    · have hit' : it ∈ l' := by
        rcases List.mem_cons.mp hit with heq | h'
        · exact absurd heq.symm hx
        · exact h'
      have hxid : x.id ≠ node := by
        intro hcontra
        exact hx (eq_of_mem_of_id hl (by simp) (List.mem_cons_of_mem x hit')
          (by rw [hcontra, hid]))
      rw [List.filter_cons, List.filter_cons, hother x hxid]
      have hI := ih hrest it hit' hid hQ
      by_cases hc : (decide (Q x ∧ x.id ∉ em)) = true
      · simp only [hc, if_true, List.length_cons]
        omega
      · rw [Bool.not_eq_true] at hc
        simp only [hc, Bool.false_eq_true, if_false]
        exact hI

/-- Emitting an adjacent source decrements the in-degree by exactly
one. -/
theorem degSpec_append_adj {g : GianttGraph} (hnd : keysNodup g) {em : List Str}
    {node k : Str} {it : GianttItem} (hit : lookupG g node = some it)
    (hnode : node ∉ em) (hadj : k ∈ adjTargets g it) :
    degSpec g (em ++ [node]) k + 1 = degSpec g em k := by
  rcases lookupG_mem hit with ⟨hmem, hid⟩
  exact filter_length_em_append (fun x => k ∈ adjTargets g x) hnode g.items hnd it hmem hid hadj

/-- Emitting a non-adjacent source leaves the in-degree unchanged. -/
theorem degSpec_append_nonadj {g : GianttGraph} (hnd : keysNodup g) {em : List Str}
    {node k : Str} {it : GianttItem} (hit : lookupG g node = some it)
    (hadj : k ∉ adjTargets g it) :
    degSpec g (em ++ [node]) k = degSpec g em k := by
  rcases lookupG_mem hit with ⟨hmem, hid⟩
  unfold degSpec
  congr 1
  apply List.filter_congr
  intro x hx
  by_cases hxid : x.id = node
  · have hxit : x = it := eq_of_mem_of_id hnd hx hmem (by rw [hxid, hid])
    simp [hxit, hadj]
  · simp only [decide_eq_decide, List.mem_append, List.mem_singleton]
    constructor
    · rintro ⟨hq, hn⟩
      exact ⟨hq, fun hmem2 => hn (.inl hmem2)⟩
    · rintro ⟨hq, hn⟩
      refine ⟨hq, fun hmem2 => ?_⟩
      rcases hmem2 with hm | hm
      · exact hn hm
      · exact hxid hm

/-- Characterization of the neighbour loop: every listed key is
decremented once, and exactly the keys that reach zero are appended to
the queue, in order. -/
theorem kahnFold_spec :
    ∀ (A : List Str) (ind : List (Str × Nat)) (q0 : List Str),
      A.Nodup → (∀ t ∈ A, t ∈ ind.map Prod.fst) →
      (A.foldl kahnDecr (ind, q0)).1.map Prod.fst = ind.map Prod.fst
      ∧ (∀ k, lookupTab (A.foldl kahnDecr (ind, q0)).1 k
          = if k ∈ A then (lookupTab ind k).map (fun n => n - 1) else lookupTab ind k)
      ∧ (A.foldl kahnDecr (ind, q0)).2
          = q0 ++ A.filter (fun t => ((lookupTab ind t).getD 0) - 1 = 0) := by
  intro A
  induction A with
  | nil =>
    intro ind q0 _ _
    refine ⟨rfl, fun k => by simp, by simp⟩
  | cons t A' ih =>
    intro ind q0 hnodup hmem
    rcases List.nodup_cons.mp hnodup with ⟨htA', hA'⟩
    have ht : t ∈ ind.map Prod.fst := hmem t (by simp)
    rcases lookupTab_isSome_of_mem_fst ht with ⟨w, hw⟩
    have hfold : (t :: A').foldl kahnDecr (ind, q0) = A'.foldl kahnDecr (kahnDecr (ind, q0) t) := rfl
    have hstep : kahnDecr (ind, q0) t
        = (setTab ind t (w - 1), if w - 1 = 0 then q0 ++ [t] else q0) := by
      simp [kahnDecr, hw]
    have hmem' : ∀ t2 ∈ A', t2 ∈ (setTab ind t (w - 1)).map Prod.fst := by
      intro t2 ht2
      rw [setTab_fst]
      exact hmem t2 (.tail _ ht2)
    rcases ih (setTab ind t (w - 1)) (if w - 1 = 0 then q0 ++ [t] else q0) hA' hmem'
      with ⟨ih1, ih2, ih3⟩
    rw [hfold, hstep]
    refine ⟨ih1.trans (setTab_fst ind t (w - 1)), ?_, ?_⟩
    · intro k
      rw [ih2 k]
      by_cases hkA' : k ∈ A'
      · have hkt : k ≠ t := fun hc => htA' (hc ▸ hkA')
        rw [if_pos hkA', if_pos (List.mem_cons_of_mem t hkA'),
          lookupTab_setTab_ne (w - 1) hkt]
      · by_cases hkt : k = t
        · subst hkt
          rw [if_neg hkA', if_pos (by simp), lookupTab_setTab_self (w - 1) ht, hw]
          rfl
        · rw [if_neg hkA', if_neg (by simp [hkt, hkA']), lookupTab_setTab_ne (w - 1) hkt]
    · rw [ih3]
      have hfilter : A'.filter (fun t2 => ((lookupTab (setTab ind t (w - 1)) t2).getD 0) - 1 = 0)
          = A'.filter (fun t2 => ((lookupTab ind t2).getD 0) - 1 = 0) := by
        apply List.filter_congr
        intro t2 ht2
        have : t2 ≠ t := fun hc => htA' (hc ▸ ht2)
        rw [lookupTab_setTab_ne (w - 1) this]
      rw [hfilter, List.filter_cons]
      have hcond : (decide (((lookupTab ind t).getD 0) - 1 = 0)) = decide (w - 1 = 0) := by
        rw [hw]; rfl
      by_cases hv : w - 1 = 0
      · rw [if_pos hv]
        simp [hcond, hv]
      · rw [if_neg hv]
        simp [hcond, hv]

theorem adjTargets_nodup (g : GianttGraph) (it : GianttItem) : (adjTargets g it).Nodup :=
  dedupF_nodup _

theorem adjTargets_keys {g : GianttGraph} (hnd : keysNodup g) {it : GianttItem} {t : Str}
    (h : t ∈ adjTargets g it) : t ∈ keysG g := by
  have h2 := mem_dedupF.mp h
  exact (containsId_iff_keys hnd).mp (by simpa using (List.mem_filter.mp h2).2)

theorem edgeR_of_adj {g : GianttGraph} {it : GianttItem} {node t : Str}
    (hlook : lookupG g node = some it) (h : t ∈ adjTargets g it) : edgeR g node t := by
  have h2 := mem_dedupF.mp h
  rcases List.mem_filter.mp h2 with ⟨hreq, hcontains⟩
  exact ⟨it, hlook, hreq, by simpa using hcontains⟩

/-- One Kahn iteration preserves the loop invariant and emits exactly
the popped node. -/
theorem kahnStep_spec {g : GianttGraph} (hnd : keysNodup g) {s : KState}
    (hg : GoodK g s) {node : Str} {qrest : List Str} (hq : s.queue = node :: qrest) :
    GoodK g (kahnStep g s) ∧ eids (kahnStep g s) = eids s ++ [node] := by
  have hnodeQ : node ∈ s.queue := by rw [hq]; simp
  have hnodeKeys : node ∈ keysG g := hg.queue_mem node hnodeQ
  rcases mem_keysG_iff.mp hnodeKeys with ⟨it0, hmem0, hid0⟩
  have hlook : lookupG g node = some it0 := by rw [← hid0]; exact lookupG_self hnd hmem0
  have hadjOf : adjOf g node = adjTargets g it0 := by rw [adjOf, hlook]
  have hstep : kahnStep g s =
      ⟨qrest ++ ((adjOf g node).foldl kahnDecr (s.indeg, [])).2,
       ((adjOf g node).foldl kahnDecr (s.indeg, [])).1,
       s.emitted ++ [it0]⟩ := by
    simp only [kahnStep, hq, hlook]
  have hAnodup : (adjOf g node).Nodup := by rw [hadjOf]; exact adjTargets_nodup g it0
  have hAkeys : ∀ t ∈ adjOf g node, t ∈ keysG g := by
    intro t ht
    rw [hadjOf] at ht
    exact adjTargets_keys hnd ht
  have hAind : ∀ t ∈ adjOf g node, t ∈ s.indeg.map Prod.fst := by
    intro t ht
    rw [hg.indeg_keys]
    exact hAkeys t ht
  rcases kahnFold_spec (adjOf g node) s.indeg [] hAnodup hAind with ⟨hF1, hF2, hF3⟩
  have hmapem : (s.emitted ++ [it0]).map GianttItem.id = eids s ++ [node] := by
    rw [List.map_append]
    simp [eids, hid0]
  have heids : eids (kahnStep g s) = eids s ++ [node] := by
    rw [hstep]
    exact hmapem
  have hnodeFresh : node ∉ eids s := hg.queue_fresh node hnodeQ
  have hqueueNodup : (node :: qrest).Nodup := hq ▸ hg.queue_nodup
  have hqrestNodup : qrest.Nodup := (List.nodup_cons.mp hqueueNodup).2
  have hnodeNotQrest : node ∉ qrest := (List.nodup_cons.mp hqueueNodup).1
  have hdegnode : degSpec g (eids s) node = 0 :=
    (hg.zero_iff node hnodeKeys).mpr (.inr hnodeQ)
  have hApos : ∀ t ∈ adjOf g node, 0 < degSpec g (eids s) t := by
    intro t ht
    rw [hadjOf] at ht
    exact degSpec_pos_of_src hmem0 ht (hid0 ▸ hnodeFresh)
  have hAfresh : ∀ t ∈ adjOf g node, t ∉ eids s ∧ t ∉ s.queue := by
    intro t ht
    by_contra hcontra
    have : t ∈ eids s ∨ t ∈ s.queue := by tauto
    exact absurd ((hg.zero_iff t (hAkeys t ht)).mpr this)
      (Nat.pos_iff_ne_zero.mp (hApos t ht))
  have hnodeA : node ∉ adjOf g node := by
    intro hmem
    exact absurd hdegnode (Nat.pos_iff_ne_zero.mp (hApos node hmem))
  have hspecAdj : ∀ k ∈ adjOf g node,
      degSpec g (eids s ++ [node]) k + 1 = degSpec g (eids s) k := by
    intro k hk
    rw [hadjOf] at hk
    exact degSpec_append_adj hnd hlook hnodeFresh hk
  have hspecNon : ∀ k, k ∉ adjOf g node →
      degSpec g (eids s ++ [node]) k = degSpec g (eids s) k := by
    intro k hk
    rw [hadjOf] at hk
    exact degSpec_append_nonadj hnd hlook hk
  have hcondIff : ∀ t ∈ adjOf g node,
      (t ∈ ((adjOf g node).filter (fun t2 => ((lookupTab s.indeg t2).getD 0) - 1 = 0))
        ↔ degSpec g (eids s) t = 1) := by
    intro t ht
    rw [List.mem_filter]
    have hval : lookupTab s.indeg t = some (degSpec g (eids s) t) :=
      hg.indeg_val t (hAkeys t ht)
    have hpos := hApos t ht
    constructor
    · rintro ⟨_, hcond⟩
      rw [hval] at hcond
      simp only [Option.getD_some, decide_eq_true_eq] at hcond
      omega
    · intro h1
      refine ⟨ht, ?_⟩
      rw [hval]
      simp only [Option.getD_some, decide_eq_true_eq]
      omega
  refine ⟨?_, heids⟩
  rw [hstep]
  constructor
  case emitted_mem =>
    intro x hx
    rcases List.mem_append.mp hx with hx' | hx'
    · exact hg.emitted_mem x hx'
    · rw [List.mem_singleton.mp hx']
      exact hmem0
  case emitted_nodup =>
    show ((s.emitted ++ [it0]).map GianttItem.id).Nodup
    rw [hmapem, (List.perm_append_singleton node (eids s)).nodup_iff]
    exact List.nodup_cons.mpr ⟨hnodeFresh, hg.emitted_nodup⟩
  case queue_mem =>
    intro q hqm
    rcases List.mem_append.mp hqm with hq' | hq'
    · exact hg.queue_mem q (by rw [hq]; exact List.mem_cons_of_mem node hq')
    · rw [hF3] at hq'
      simp only [List.nil_append] at hq'
      exact hAkeys q (List.mem_of_mem_filter hq')
  case queue_nodup =>
    rw [hF3]
    simp only [List.nil_append]
    rw [List.nodup_append]
    refine ⟨hqrestNodup, hAnodup.filter _, ?_⟩
    intro a ha hafilter
    have haA : a ∈ adjOf g node := List.mem_of_mem_filter hafilter
    exact (hAfresh a haA).2 (by rw [hq]; exact List.mem_cons_of_mem node ha)
  case queue_fresh =>
    intro q hqm
    show q ∉ (s.emitted ++ [it0]).map GianttItem.id
    rw [hmapem]
    rw [hF3] at hqm
    simp only [List.nil_append] at hqm
    intro hmem
    rcases List.mem_append.mp hmem with hq' | hq'
    · rcases List.mem_append.mp hqm with hqr | hqf
      · exact hg.queue_fresh q (by rw [hq]; exact List.mem_cons_of_mem node hqr) hq'
      · exact (hAfresh q (List.mem_of_mem_filter hqf)).1 hq'
    · rw [List.mem_singleton.mp hq'] at hqm
      rcases List.mem_append.mp hqm with hqr | hqf
      · exact hnodeNotQrest hqr
      · exact hnodeA (List.mem_of_mem_filter hqf)
  case indeg_keys => exact hF1.trans hg.indeg_keys
  case indeg_val =>
    intro k hk
    rw [hF2 k]
    show _ = some (degSpec g ((s.emitted ++ [it0]).map GianttItem.id) k)
    rw [hmapem]
    by_cases hkA : k ∈ adjOf g node
    · rw [if_pos hkA, hg.indeg_val k hk]
      have h2 := hspecAdj k hkA
      show some (degSpec g (eids s) k - 1) = some (degSpec g (eids s ++ [node]) k)
      congr 1
      omega
    · rw [if_neg hkA, hg.indeg_val k hk, hspecNon k hkA]
  case zero_iff =>
    intro k hk
    show degSpec g ((s.emitted ++ [it0]).map GianttItem.id) k = 0 ↔
      k ∈ (s.emitted ++ [it0]).map GianttItem.id ∨ _
    rw [hmapem, hF3]
    simp only [List.nil_append]
    constructor
    · intro hzero
      by_cases hknode : k = node
      · exact .inl (by rw [hknode]; simp)
      · by_cases hkA : k ∈ adjOf g node
        · have hadd := hspecAdj k hkA
          have h1 : degSpec g (eids s) k = 1 := by omega
          exact .inr (List.mem_append.mpr (.inr ((hcondIff k hkA).mpr h1)))
        · rw [hspecNon k hkA] at hzero
          rcases (hg.zero_iff k hk).mp hzero with hkem | hkq
          · exact .inl (List.mem_append.mpr (.inl hkem))
          · refine .inr (List.mem_append.mpr (.inl ?_))
            rcases List.mem_cons.mp (hq ▸ hkq) with heq | hqr
            · exact absurd heq hknode
            · exact hqr
    · intro hmem
      rcases hmem with hkem' | hkq'
      · rcases List.mem_append.mp hkem' with hkem | hknode
        · have hz : degSpec g (eids s) k = 0 := (hg.zero_iff k hk).mpr (.inl hkem)
          by_cases hkA : k ∈ adjOf g node
          · exact absurd hz (Nat.pos_iff_ne_zero.mp (hApos k hkA))
          · rw [hspecNon k hkA, hz]
        · rw [List.mem_singleton.mp hknode]
          have := degSpec_mono g (eids s) node node
          omega
      · rcases List.mem_append.mp hkq' with hqr | hqf
        · have hkq : k ∈ s.queue := by rw [hq]; exact List.mem_cons_of_mem node hqr
          have hz : degSpec g (eids s) k = 0 := (hg.zero_iff k hk).mpr (.inr hkq)
          by_cases hkA : k ∈ adjOf g node
          · exact absurd hz (Nat.pos_iff_ne_zero.mp (hApos k hkA))
          · rw [hspecNon k hkA, hz]
        · have hkA : k ∈ adjOf g node := List.mem_of_mem_filter hqf
          have h1 : degSpec g (eids s) k = 1 := (hcondIff k hkA).mp hqf
          have := hspecAdj k hkA
          omega

theorem lookupTab_map_items : ∀ (l : List GianttItem) (f : Str → Nat) (k : Str),
    k ∈ l.map GianttItem.id →
    lookupTab (l.map (fun it => (it.id, f it.id))) k = some (f k) := by
  intro l
  induction l with
  | nil => intro f k hk; simp at hk
  | cons x l' ih =>
    intro f k hk
    rw [List.map_cons, lookupTab_cons]
    by_cases hx : x.id = k
    · rw [if_pos hx, hx]
    · rw [if_neg hx]
      rcases List.mem_cons.mp (show k ∈ x.id :: l'.map GianttItem.id from hk) with heq | h'
      · exact absurd heq.symm hx
      · exact ih f k h'

theorem degSpec_nil (g : GianttGraph) (k : Str) : degSpec g [] k = srcCount g k := by
  unfold degSpec srcCount
  congr 1
  apply List.filter_congr
  intro x _
  simp

/-- The invariant holds at initialization. -/
theorem kahnInit_good {g : GianttGraph} (hnd : keysNodup g) : GoodK g (kahnInit g) := by
  constructor
  case emitted_mem => intro it hit; simp [kahnInit] at hit
  case emitted_nodup => simp [eids, kahnInit]
  case queue_mem =>
    intro q hq
    rcases List.mem_map.mp hq with ⟨it, hit, hid⟩
    exact mem_keysG_iff.mpr ⟨it, List.mem_of_mem_filter hit, hid⟩
  case queue_nodup =>
    exact hnd.sublist ((List.filter_sublist _).map GianttItem.id)
  case queue_fresh => intro q _ hmem; simp [eids, kahnInit] at hmem
  case indeg_keys => simp [kahnInit, keysG, List.map_map, Function.comp]
  case indeg_val =>
    intro k hk
    have hnil : eids (kahnInit g) = [] := rfl
    show lookupTab (g.items.map (fun it => (it.id, srcCount g it.id))) k = _
    rw [lookupTab_map_items g.items (srcCount g) k hk, hnil, degSpec_nil]
  case zero_iff =>
    intro k hk
    have hnil : eids (kahnInit g) = [] := rfl
    rw [hnil, degSpec_nil]
    constructor
    · intro hzero
      rcases mem_keysG_iff.mp hk with ⟨it, hit, hid⟩
      refine .inr (List.mem_map.mpr ⟨it, List.mem_filter.mpr ⟨hit, ?_⟩, hid⟩)
      rw [hid]
      simpa using hzero
    · rintro (hmem | hmem)
      · simp [eids, kahnInit] at hmem
      · rcases List.mem_map.mp hmem with ⟨it, hit, hid⟩
        have := List.mem_filter.mp hit
        rw [← hid]
        simpa using this.2

/-- Running the loop with fuel `|items|` empties the queue while
preserving the invariant. -/
theorem kahnRun_spec {g : GianttGraph} (hnd : keysNodup g) :
    ∀ (fuel : Nat) (s : KState), GoodK g s →
      g.items.length ≤ (eids s).length + fuel →
      GoodK g (kahnRun g fuel s) ∧ (kahnRun g fuel s).queue = [] := by
  intro fuel
  induction fuel with
  | zero =>
    intro s hg hlen
    refine ⟨hg, ?_⟩
    rcases hq : s.queue with _ | ⟨q, qr⟩
    · exact hq
    · exfalso
      have hqk : q ∈ keysG g := hg.queue_mem q (by rw [hq]; simp)
      have hsub : (eids s).toFinset ⊆ (keysG g).toFinset := by
        intro x hx
        rw [List.mem_toFinset] at hx ⊢
        rcases List.mem_map.mp hx with ⟨it, hit, hid⟩
        exact mem_keysG_iff.mpr ⟨it, hg.emitted_mem it hit, hid⟩
      have hcard : (keysG g).toFinset.card ≤ (eids s).toFinset.card := by
        have h1 : (keysG g).toFinset.card ≤ (keysG g).length := List.toFinset_card_le _
        have h2 : (eids s).toFinset.card = (eids s).length :=
          List.toFinset_card_of_nodup hg.emitted_nodup
        have h3 : (keysG g).length = g.items.length := List.length_map _ _
        omega
      have heq : (eids s).toFinset = (keysG g).toFinset :=
        Finset.eq_of_subset_of_card_le hsub hcard
      have : q ∈ eids s := by
        rw [← List.mem_toFinset, heq, List.mem_toFinset]
        exact hqk
      exact hg.queue_fresh q (by rw [hq]; simp) this
  | succ fuel ih =>
    intro s hg hlen
    rcases hq : s.queue with _ | ⟨node, qrest⟩
    · simp only [kahnRun, hq]
      exact ⟨hg, trivial⟩
    · rcases kahnStep_spec hnd hg hq with ⟨hg', heids⟩
      have hlen' : g.items.length ≤ (eids (kahnStep g s)).length + fuel := by
        rw [heids, List.length_append]
        simp only [List.length_singleton]
        omega
      have hres := ih (kahnStep g s) hg' hlen'
      simp only [kahnRun, hq]
      exact hres

/-- Any non-empty vertex list in which every vertex has a predecessor
inside the list yields a cycle. -/
theorem exists_cycle_of_all_pred {r : Str → Str → Prop} (U : List Str) (hU : U ≠ [])
    (hpred : ∀ u ∈ U, ∃ v ∈ U, r v u) : ∃ a, Relation.TransGen r a a := by
  classical
  have hfn : ∀ u : {x // x ∈ U}, ∃ v : {x // x ∈ U}, r v.val u.val := by
    intro u
    rcases hpred u.val u.prop with ⟨v, hv, hrv⟩
    exact ⟨⟨v, hv⟩, hrv⟩
  choose f hf using hfn
  rcases List.exists_mem_of_ne_nil U hU with ⟨u0v, hu0⟩
  set u0 : {x // x ∈ U} := ⟨u0v, hu0⟩ with hu0def
  have hchain : ∀ m (u : {x // x ∈ U}), 0 < m →
      Relation.TransGen r (f^[m] u).val u.val := by
    intro m
    induction m with
    | zero => intro u h; omega
    | succ m ihm =>
      intro u _
      rcases Nat.eq_zero_or_pos m with rfl | hm
      · simpa using Relation.TransGen.single (hf u)
      · rw [Function.iterate_succ_apply]
        exact (ihm (f u) hm).trans (Relation.TransGen.single (hf u))
  have hmaps : ∀ i : Fin (U.length + 1), (f^[i.val] u0).val ∈ U.toFinset := by
    intro i
    rw [List.mem_toFinset]
    exact (f^[i.val] u0).prop
  have hcardlt : U.toFinset.card < Finset.univ.card (α := Fin (U.length + 1)) := by
    have h1 : U.toFinset.card ≤ U.length := List.toFinset_card_le _
    simp only [Finset.card_univ, Fintype.card_fin]
    omega
  rcases Finset.exists_ne_map_eq_of_card_lt_of_maps_to hcardlt
    (fun i _ => hmaps i) with ⟨i, _, j, _, hij, heq⟩
  rcases Ne.lt_or_lt hij with hlt | hlt
  · refine ⟨(f^[i.val] u0).val, ?_⟩
    have hsplit : f^[j.val] u0 = f^[j.val - i.val] (f^[i.val] u0) := by
      have hj : j.val = (j.val - i.val) + i.val := by omega
      rw [hj, Function.iterate_add_apply]
      congr 1
      omega
    have hc := hchain (j.val - i.val) (f^[i.val] u0) (by omega)
    rw [← hsplit] at hc
    rwa [← heq] at hc
  · refine ⟨(f^[j.val] u0).val, ?_⟩
    have hsplit : f^[i.val] u0 = f^[i.val - j.val] (f^[j.val] u0) := by
      have hi : i.val = (i.val - j.val) + j.val := by omega
      rw [hi, Function.iterate_add_apply]
      congr 1
      omega
    have hc := hchain (i.val - j.val) (f^[j.val] u0) (by omega)
    rw [← hsplit] at hc
    rwa [heq] at hc

/-- On an acyclic graph the Kahn loop emits every item exactly once. -/
theorem kahn_complete {g : GianttGraph} (hnd : keysNodup g) (hac : AcyclicR g) :
    (kahnRun g g.items.length (kahnInit g)).emitted.Perm g.items := by
  rcases kahnRun_spec hnd g.items.length (kahnInit g) (kahnInit_good hnd)
    (by simp [eids, kahnInit]) with ⟨hgood, hqueue⟩
  set F := kahnRun g g.items.length (kahnInit g) with hF
  have hUnil : (keysG g).filter (fun k => k ∉ eids F) = [] := by
    by_contra hne
    have hpred : ∀ u ∈ (keysG g).filter (fun k => k ∉ eids F),
        ∃ v ∈ (keysG g).filter (fun k => k ∉ eids F), edgeR g v u := by
      intro u hu
      rcases List.mem_filter.mp hu with ⟨huk, hunem⟩
      have hunem' : u ∉ eids F := by simpa using hunem
      have hnz : degSpec g (eids F) u ≠ 0 := by
        intro hzero
        rcases (hgood.zero_iff u huk).mp hzero with hmem | hmem
        · exact hunem' hmem
        · rw [hqueue] at hmem
          simp at hmem
      have hpos : 0 < degSpec g (eids F) u := Nat.pos_of_ne_zero hnz
      have hex : ∃ src ∈ g.items.filter
          (fun s2 => decide (u ∈ adjTargets g s2 ∧ s2.id ∉ eids F)), True := by
        rcases List.exists_mem_of_ne_nil _ (List.length_pos.mp hpos) with ⟨src, hsrc⟩
        exact ⟨src, hsrc, trivial⟩
      rcases hex with ⟨src, hsrc, -⟩
      rcases List.mem_filter.mp hsrc with ⟨hsmem, hscond⟩
      simp only [decide_eq_true_eq] at hscond
      rcases hscond with ⟨hadj, hsem⟩
      refine ⟨src.id, List.mem_filter.mpr ⟨?_, by simpa using hsem⟩, ?_⟩
      · exact mem_keysG_iff.mpr ⟨src, hsmem, rfl⟩
      · exact edgeR_of_adj (lookupG_self hnd hsmem) hadj
    rcases exists_cycle_of_all_pred _ hne hpred with ⟨a, hcyc⟩
    exact hac a hcyc
  have hkeys_sub : ∀ k ∈ keysG g, k ∈ eids F := by
    intro k hk
    by_contra hnk
    have : k ∈ (keysG g).filter (fun k2 => k2 ∉ eids F) :=
      List.mem_filter.mpr ⟨hk, by simpa using hnk⟩
    rw [hUnil] at this
    simp at this
  have hnodup_emitted : F.emitted.Nodup := hgood.emitted_nodup.of_map
  have hnodup_items : g.items.Nodup := hnd.of_map
  rw [List.perm_ext_iff_of_nodup hnodup_emitted hnodup_items]
  intro x
  constructor
  · exact hgood.emitted_mem x
  · intro hx
    have hxk : x.id ∈ eids F := hkeys_sub x.id (mem_keysG_iff.mpr ⟨x, hx, rfl⟩)
    rcases List.mem_map.mp hxk with ⟨e, hemem, heid⟩
    have hei : e ∈ g.items := hgood.emitted_mem e hemem
    rw [← eq_of_mem_of_id hnd hei hx heid]
    exact hemem

/-- On an acyclic graph `_safe_topological_sort` succeeds, returning a
permutation of the item list. -/
theorem safeSort_ok {g : GianttGraph} (hnd : keysNodup g) (hac : AcyclicR g) :
    safeTopologicalSort g
      = .ok (kahnRun g g.items.length (kahnInit g)).emitted.reverse
    ∧ (kahnRun g g.items.length (kahnInit g)).emitted.reverse.Perm g.items := by
  have hperm := kahn_complete hnd hac
  constructor
  · unfold safeTopologicalSort
    rw [if_pos hperm.length_eq]
  · exact (List.reverse_perm _).trans hperm

/-! ## Dependency depth: the fuelled recursion stabilises on acyclic
graphs -/

theorem foldl_congr_fn {α β : Type} (f1 f2 : β → α → β) :
    ∀ (l : List α) (b : β), (∀ acc x, x ∈ l → f1 acc x = f2 acc x) →
      l.foldl f1 b = l.foldl f2 b := by
  intro l
  induction l with
  | nil => intro b _; rfl
  | cons h rest ih =>
    intro b hfn
    simp only [List.foldl_cons]
    rw [hfn b h (by simp)]
    exact ih _ (fun acc x hx => hfn acc x (List.mem_cons_of_mem h hx))

theorem edgeR_target_keys {g : GianttGraph} {a b : Str} (h : edgeR g a b) :
    b ∈ keysG g := by
  rcases h with ⟨it, -, -, hcont⟩
  rcases Option.isSome_iff_exists.mp hcont with ⟨it2, hit2⟩
  exact mem_keysG_iff.mpr ⟨it2, (lookupG_mem hit2).1, (lookupG_mem hit2).2⟩

theorem transGen_target_keys {g : GianttGraph} {a b : Str}
    (h : Relation.TransGen (edgeR g) a b) : b ∈ keysG g := by
  cases h with
  | single he => exact edgeR_target_keys he
  | tail ht he => exact edgeR_target_keys he

/-- The set of ids reachable from `a` along present-REQUIRES edges is
finite (it sits inside the graph's key set). -/
theorem reach_finite (g : GianttGraph) (a : Str) :
    {b | Relation.TransGen (edgeR g) a b}.Finite :=
  Set.Finite.subset (List.finite_toSet (keysG g)) (fun _ hb => transGen_target_keys hb)

/-- On an acyclic graph, following an edge strictly shrinks the
reachable set: the termination measure of `_get_dependency_depth`. -/
theorem measure_lt {g : GianttGraph} (hac : AcyclicR g) {a b : Str}
    (h : edgeR g a b) :
    {c | Relation.TransGen (edgeR g) b c}.ncard
      < {c | Relation.TransGen (edgeR g) a c}.ncard := by
  have hsub : {c | Relation.TransGen (edgeR g) b c}
      ⊆ {c | Relation.TransGen (edgeR g) a c} \ {b} := by
    intro c hc
    refine ⟨Relation.TransGen.head h hc, ?_⟩
    intro hcb
    rw [Set.mem_singleton_iff] at hcb
    subst hcb
    exact hac c hc
  have hb : b ∈ {c | Relation.TransGen (edgeR g) a c} := Relation.TransGen.single h
  calc {c | Relation.TransGen (edgeR g) b c}.ncard
      ≤ ({c | Relation.TransGen (edgeR g) a c} \ {b}).ncard :=
        Set.ncard_le_ncard hsub (Set.Finite.diff (reach_finite g a) {b})
    _ < {c | Relation.TransGen (edgeR g) a c}.ncard :=
        Set.ncard_diff_singleton_lt_of_mem hb (reach_finite g a)

theorem measure_le_of_keys {g : GianttGraph} (hac : AcyclicR g) {b : Str}
    (hb : b ∈ keysG g) :
    {c | Relation.TransGen (edgeR g) b c}.ncard ≤ g.items.length - 1 := by
  have hsub : {c | Relation.TransGen (edgeR g) b c}
      ⊆ (((keysG g).toFinset.erase b : Finset Str) : Set Str) := by
    intro c hc
    rw [Finset.coe_erase]
    refine ⟨?_, ?_⟩
    · simp only [Finset.mem_coe, List.mem_toFinset]
      exact transGen_target_keys hc
    · intro hcb
      rw [Set.mem_singleton_iff] at hcb
      subst hcb
      exact hac _ hc
  calc {c | Relation.TransGen (edgeR g) b c}.ncard
      ≤ (((keysG g).toFinset.erase b : Finset Str) : Set Str).ncard :=
        Set.ncard_le_ncard hsub (Finset.finite_toSet _)
    _ = ((keysG g).toFinset.erase b).card := Set.ncard_coe_Finset _
    _ = (keysG g).toFinset.card - 1 :=
        Finset.card_erase_of_mem (List.mem_toFinset.mpr hb)
    _ ≤ (keysG g).length - 1 := Nat.sub_le_sub_right (List.toFinset_card_le (keysG g)) 1
    _ = g.items.length - 1 := by simp [keysG]

/-- Any two fuels beyond the reachable-set size give the same depth:
the Python recursion's value is fuel-independent on acyclic graphs. -/
theorem depthFuel_stable {g : GianttGraph} (hnd : keysNodup g) (hac : AcyclicR g) :
    ∀ (n : Nat) (it : GianttItem), it ∈ g.items →
      {c | Relation.TransGen (edgeR g) it.id c}.ncard ≤ n →
      ∀ f1 f2 : Nat, n < f1 → n < f2 → depthFuel g f1 it = depthFuel g f2 it := by
  intro n
  induction n with
  | zero =>
    intro it hit hm f1 f2 hf1 hf2
    obtain ⟨a2, rfl⟩ : ∃ a2, f1 = a2 + 1 := ⟨f1 - 1, by omega⟩
    obtain ⟨b2, rfl⟩ : ∃ b2, f2 = b2 + 1 := ⟨f2 - 1, by omega⟩
    simp only [depthFuel]
    rcases hreq : relLookup it "REQUIRES".data with _ | targets
    · rfl
    · simp only [hreq]
      apply foldl_congr_fn
      intro acc t ht
      rcases hlk : lookupG g t with _ | dep
      · simp only [hlk]
      · exfalso
        have hedge : edgeR g it.id t :=
          ⟨it, lookupG_self hnd hit, by simpa [hreq] using ht,
            by simp [containsId, hlk]⟩
        have hmem : t ∈ {c | Relation.TransGen (edgeR g) it.id c} :=
          Relation.TransGen.single hedge
        have hpos : 0 < {c | Relation.TransGen (edgeR g) it.id c}.ncard :=
          (Set.ncard_pos (reach_finite g it.id)).mpr ⟨t, hmem⟩
        omega
  | succ n ih =>
    intro it hit hm f1 f2 hf1 hf2
    obtain ⟨a2, rfl⟩ : ∃ a2, f1 = a2 + 1 := ⟨f1 - 1, by omega⟩
    obtain ⟨b2, rfl⟩ : ∃ b2, f2 = b2 + 1 := ⟨f2 - 1, by omega⟩
    simp only [depthFuel]
    rcases hreq : relLookup it "REQUIRES".data with _ | targets
    · rfl
    · simp only [hreq]
      apply foldl_congr_fn
      intro acc t ht
      rcases hlk : lookupG g t with _ | dep
      · simp only [hlk]
      · simp only [hlk]
        have hedge : edgeR g it.id t :=
          ⟨it, lookupG_self hnd hit, by simpa [hreq] using ht,
            by simp [containsId, hlk]⟩
        have hdeplt := measure_lt hac hedge
        have hdepid : dep.id = t := (lookupG_mem hlk).2
        have hdepmem : dep ∈ g.items := (lookupG_mem hlk).1
        have hmle : {c | Relation.TransGen (edgeR g) dep.id c}.ncard ≤ n := by
          rw [hdepid]; omega
        rw [ih dep hdepmem hmle a2 b2 (by omega) (by omega)]

/-- The recursion equation of `_get_dependency_depth` holds of the
fuelled version at the fuel `topological_sort` uses. -/
theorem depthD_recurrence {g : GianttGraph} (hnd : keysNodup g) (hac : AcyclicR g) :
    ∀ it ∈ g.items,
      depthD g it =
        match relLookup it "REQUIRES".data with
        | none => 0
        | some targets =>
          targets.foldl (fun m t =>
            match lookupG g t with
            | some dep => max m (depthD g dep + 1)
            | none => m) 0 := by
  intro it hit
  have hpos : 0 < g.items.length := List.length_pos.mpr (List.ne_nil_of_mem hit)
  have hstep : depthD g it =
      match relLookup it "REQUIRES".data with
      | none => 0
      | some targets =>
        targets.foldl (fun m t =>
          match lookupG g t with
          | some dep => max m (depthFuel g g.items.length dep + 1)
          | none => m) 0 := by
    simp only [depthD, depthFuel]
  rw [hstep]
  rcases hreq : relLookup it "REQUIRES".data with _ | targets
  · simp only [hreq]
  · simp only [hreq]
    apply foldl_congr_fn
    intro acc t ht
    rcases hlk : lookupG g t with _ | dep
    · simp only [hlk]
    · simp only [hlk]
      have hdepid : dep.id = t := (lookupG_mem hlk).2
      have hdepmem : dep ∈ g.items := (lookupG_mem hlk).1
      have hkey : dep.id ∈ keysG g := mem_keysG_iff.mpr ⟨dep, hdepmem, rfl⟩
      have hm : {c | Relation.TransGen (edgeR g) dep.id c}.ncard
          ≤ g.items.length - 1 := measure_le_of_keys hac hkey
      have heq : depthFuel g g.items.length dep = depthD g dep :=
        depthFuel_stable hnd hac (g.items.length - 1) dep hdepmem hm
          g.items.length (g.items.length + 1) (by omega) (by omega)
      rw [heq]

/-! ## The canonical form of `topological_sort` -/

/-- Re-sorting any permutation of the item list by the `(depth, id)`
key yields a list strictly sorted under `ltP`. -/
theorem pairwise_ltP_sorted {g : GianttGraph} (hnd : keysNodup g)
    {l : List GianttItem} (hperm : l.Perm g.items) :
    (List.insertionSort (rLe g) l).Pairwise (ltP g) := by
  haveI : IsTotal GianttItem (rLe g) := ⟨rLe_total g⟩
  haveI : IsTrans GianttItem (rLe g) := ⟨rLe_trans g⟩
  have hsorted : (List.insertionSort (rLe g) l).Pairwise (rLe g) :=
    List.sorted_insertionSort (rLe g) l
  have hnd2 : ((List.insertionSort (rLe g) l).map GianttItem.id).Nodup :=
    ((List.perm_insertionSort (rLe g) l).map GianttItem.id).nodup_iff.mpr
      ((hperm.map GianttItem.id).nodup_iff.mpr hnd)
  unfold List.Nodup at hnd2
  rw [List.pairwise_map] at hnd2
  exact hsorted.and hnd2

/-- On an acyclic graph with distinct ids, `topological_sort` returns
exactly the item list sorted by the `(depth, id)` key. -/
theorem topologicalSort_canonical {g : GianttGraph} (hnd : keysNodup g)
    (hac : AcyclicR g) :
    topologicalSort g = .ok (List.insertionSort (rLe g) g.items) := by
  rcases safeSort_ok hnd hac with ⟨hok, hperm⟩
  have hsort : List.insertionSort (rLe g)
        (kahnRun g g.items.length (kahnInit g)).emitted.reverse
      = List.insertionSort (rLe g) g.items :=
    eq_of_perm_pairwise_lt (ltP g) (fun a b => ltP_asymm g) _ _
      (((List.perm_insertionSort (rLe g) _).trans hperm).trans
        (List.perm_insertionSort (rLe g) g.items).symm)
      (pairwise_ltP_sorted hnd hperm)
      (pairwise_ltP_sorted hnd (List.Perm.refl g.items))
  simp only [topologicalSort, hok, Except.map]
  exact congrArg Except.ok hsort

/-! ## Transport along a permutation of the item list -/

theorem depthFuel_eq_of_lookup {g1 g2 : GianttGraph}
    (hlk : ∀ i, lookupG g1 i = lookupG g2 i) :
    ∀ (fuel : Nat) (it : GianttItem), depthFuel g1 fuel it = depthFuel g2 fuel it := by
  intro fuel
  induction fuel with
  | zero => intro it; rfl
  | succ n ih =>
    intro it
    simp only [depthFuel]
    rcases hreq : relLookup it "REQUIRES".data with _ | targets
    · rfl
    · simp only [hreq]
      apply foldl_congr_fn
      intro acc t ht
      rw [← hlk t]
      rcases hlk1 : lookupG g1 t with _ | dep
      · simp only [hlk1]
      · simp only [hlk1, ih dep]

theorem keyLeB_eq_of {g1 g2 : GianttGraph}
    (hlk : ∀ i, lookupG g1 i = lookupG g2 i)
    (hlen : g1.items.length = g2.items.length) (a b : GianttItem) :
    keyLeB g1 a b = keyLeB g2 a b := by
  have hd : ∀ x, depthD g1 x = depthD g2 x := by
    intro x
    show depthFuel g1 (g1.items.length + 1) x = depthFuel g2 (g2.items.length + 1) x
    rw [hlen]
    exact depthFuel_eq_of_lookup hlk _ x
  simp only [keyLeB, hd]

theorem edgeR_iff_of_lookup {g1 g2 : GianttGraph}
    (hlk : ∀ i, lookupG g1 i = lookupG g2 i) (a b : Str) :
    edgeR g1 a b ↔ edgeR g2 a b := by
  unfold edgeR containsId
  rw [hlk a, hlk b]

theorem acyclic_of_lookup {g1 g2 : GianttGraph}
    (hlk : ∀ i, lookupG g1 i = lookupG g2 i) (hac : AcyclicR g1) : AcyclicR g2 :=
  fun a hcyc => hac a
    (Relation.TransGen.mono (fun x y h => (edgeR_iff_of_lookup hlk x y).mpr h) hcyc)

/-- **C3.** For any two graphs holding the same items in different
insertion orders (`g1.items` a permutation of `g2.items`, ids
distinct), with the present-id REQUIRES relation acyclic,
`topological_sort` returns the identical sequence — namely the items
sorted by the `(dependency depth, id)` key — and the dependency depth
satisfies the claimed recursion: `0` when the item has no REQUIRES
entry, else the fold taking `max` of `depth(dep) + 1` over the REQUIRES
targets present in the graph. -/
theorem c3_topological_sort_deterministic (g1 g2 : GianttGraph)
    (hperm : g1.items.Perm g2.items) (hnd : keysNodup g1) (hac : AcyclicR g1) :
    topologicalSort g1 = topologicalSort g2
    ∧ topologicalSort g1 = .ok (List.insertionSort (rLe g1) g1.items)
    ∧ ∀ it ∈ g1.items,
        depthD g1 it =
          match relLookup it "REQUIRES".data with
          | none => 0
          | some targets =>
            targets.foldl (fun m t =>
              match lookupG g1 t with
              | some dep => max m (depthD g1 dep + 1)
              | none => m) 0 := by
  have hnd2 : keysNodup g2 := (hperm.map GianttItem.id).nodup_iff.mp hnd
  have hlk := lookupG_eq_of_perm hperm hnd
  have hlen := hperm.length_eq
  have hac2 : AcyclicR g2 := acyclic_of_lookup hlk hac
  have hcan1 := topologicalSort_canonical hnd hac
  have hcan2 := topologicalSort_canonical hnd2 hac2
  have hp12 : (List.insertionSort (rLe g1) g1.items).Perm
      (List.insertionSort (rLe g2) g2.items) :=
    ((List.perm_insertionSort (rLe g1) g1.items).trans hperm).trans
      (List.perm_insertionSort (rLe g2) g2.items).symm
  have hpair2 : (List.insertionSort (rLe g2) g2.items).Pairwise (ltP g1) := by
    refine List.Pairwise.imp ?_ (pairwise_ltP_sorted hnd2 (List.Perm.refl g2.items))
    intro a b hab
    exact ⟨(keyLeB_eq_of hlk hlen a b).trans hab.1, hab.2⟩
  have hsort_eq := eq_of_perm_pairwise_lt (ltP g1) (fun a b => ltP_asymm g1) _ _
    hp12 (pairwise_ltP_sorted hnd (List.Perm.refl g1.items)) hpair2
  exact ⟨by rw [hcan1, hcan2, hsort_eq], hcan1, depthD_recurrence hnd hac⟩

/-- Witness for C3: the two-item graph `[a, b]` (no relations) against
its reversal `[b, a]` — same item set, different insertion order,
trivially acyclic — yields the same sorted output. -/
theorem c3_topological_sort_deterministic_witness :
    (⟨[c6ItemA, c6ItemB]⟩ : GianttGraph).items.Perm
        (⟨[c6ItemB, c6ItemA]⟩ : GianttGraph).items
    ∧ keysNodup ⟨[c6ItemA, c6ItemB]⟩
    ∧ AcyclicR ⟨[c6ItemA, c6ItemB]⟩
    ∧ topologicalSort ⟨[c6ItemA, c6ItemB]⟩
        = topologicalSort ⟨[c6ItemB, c6ItemA]⟩ := by
  have hperm : (⟨[c6ItemA, c6ItemB]⟩ : GianttGraph).items.Perm
      (⟨[c6ItemB, c6ItemA]⟩ : GianttGraph).items :=
    List.Perm.swap c6ItemB c6ItemA []
  have hnd : keysNodup ⟨[c6ItemA, c6ItemB]⟩ := by
    unfold keysNodup
    decide
  have hnoedge : ∀ a b, ¬ edgeR (⟨[c6ItemA, c6ItemB]⟩ : GianttGraph) a b := by
    rintro a b ⟨it, hlook, hmem, -⟩
    have hitems := (lookupG_mem hlook).1
    have h2 : it = c6ItemA ∨ it = c6ItemB := by simpa using hitems
    rcases h2 with rfl | rfl <;>
      simp [relLookup, lookupTab, c6ItemA, c6ItemB] at hmem
  have hac : AcyclicR ⟨[c6ItemA, c6ItemB]⟩ := by
    intro a hcyc
    cases hcyc with
    | single h => exact hnoedge _ _ h
    | tail ht h => exact hnoedge _ _ h
  exact ⟨hperm, hnd, hac,
    (c3_topological_sort_deterministic _ _ hperm hnd hac).1⟩
